import Mathlib

/-!
# flighttracker: flight path reduction

A shallow embedding of the package `flightpath` (`flightpath/flightpath.go`) and
of the decoding boundary of `cmd/flightpathd/flightpathd.go`.

* A Go `[]*Flight` is a `List Flight`; the functions below never write through
  a pointer of the caller's slice, so flights are kept by value.
* A Go runtime panic (index out of range) is the outcome
  `Outcome.panicIndexOutOfRange`.
* `calculateSort` reorders the caller's slice in place: it returns the outcome
  together with the slice as it is after the call.
* The `goto loop` of `calculateReduce` has no bound in the source; it is run
  with a fuel that counts passes, `none` meaning that the fuel ran out before
  the loop was left.
* `sort.Slice` of the Go standard library is the insertion sort it runs on a
  slice of at most 12 elements (`insertionSortLessFunc`). On a longer slice it
  runs the rest of `pdqsort_func`, which reaches the slice only through
  `data.Less` and `data.Swap`: the swaps it makes are a parameter.
* In `unmarshalCustom` and `marshalAppend` a Go byte string is the list of its
  bytes, each byte a `Char`; `json.Unmarshal`, `strconv.AppendQuote` (outside
  printable ASCII) and the `io.Writer` are parameters.
-/

namespace Flightpath

/-- A Flight represents a single flight between 2 airports. -/
structure Flight where
  From : String
  To : String
deriving DecidableEq, Repr

/-- What a call of `Calculate`, `calculateSort` or `calculateReduce` ends in:
a returned flight, or the runtime panic of an index out of range. -/
inductive Outcome where
  | value (f : Flight)
  | panicIndexOutOfRange
deriving DecidableEq, Repr

/-! ## sort.Slice -/

/-- The call `data.Swap(j+1, j)`: exchanges the elements at `j` and `j+1`. -/
def swapAdj : List Flight → Nat → List Flight
  | x :: y :: rest, 0 => y :: x :: rest
  | x :: rest, j + 1 => x :: swapAdj rest j
  | l, _ => l

/-- Inner loop of the insertion sort:
`for j := i; j > a && data.Less(j, j-1); j-- { data.Swap(j, j-1) }` with `a = 0`.
The comparison reads the slice as it is at that moment. -/
def insertLoop (less : Flight → Flight → Bool) : Nat → List Flight → List Flight
  | 0, data => data
  | j + 1, data =>
    match data[j + 1]?, data[j]? with
    | some x, some y =>
      if less x y then insertLoop less j (swapAdj data j) else data
    | _, _ => data

/-- The function `insertionSortLessFunc` of package sort on the whole slice:
its outer loop `for i := a + 1; i < b; i++`, with `a = 0` and `b = len(data)`. -/
def insertionSort (less : Flight → Flight → Bool) (data : List Flight) : List Flight :=
  (List.range' 1 (data.length - 1)).foldl (fun d i => insertLoop less i d) data

/-- The call `data.Swap(i, j)` of the swapper of the slice: exchanges the
elements at the indices `i` and `j`. -/
def swapAt (data : List Flight) (i j : Nat) : List Flight :=
  match data[i]?, data[j]? with
  | some x, some y => (data.set i y).set j x
  | _, _ => data

/-- The slice after the calls `data.Swap(i, j)` for a list of pairs of
indices, made in turn. -/
def applySwaps (swaps : List (Nat × Nat)) (data : List Flight) : List Flight :=
  swaps.foldl (fun d p => swapAt d p.1 p.2) data

/-- What `pdqsort_func` of package sort does on a slice of more than 12
elements. It reaches the slice only through `data.Less` and `data.Swap`, so it
is given by the pairs of indices it swaps, in turn, for a comparison and a
slice. -/
@[reducible] def PdqSwaps : Type :=
  (Flight → Flight → Bool) → List Flight → List (Nat × Nat)

/-- The call `sort.Slice(data, less)`. `pdqsort_func` sorts a slice of at most
12 elements (`maxInsertion`) with `insertionSortLessFunc`; on a longer slice
it makes the swaps `pdqSwaps less data`. -/
def sortSlice (pdqSwaps : PdqSwaps) (less : Flight → Flight → Bool) (data : List Flight) :
    List Flight :=
  if data.length ≤ 12 then insertionSort less data
  else applySwaps (pdqSwaps less data) data

/-! ## calculateSort -/

/-- The map `froms` built by `calculateSort`: the `From` of every flight. -/
def fromsOf (flights : List Flight) : List String :=
  flights.map (fun f => f.From)

/-- The closure handed to `sort.Slice`, on the flights at `i` and `j`:
`flights[i].To == flights[j].From || !froms[flights[j].To]`. -/
def sortLess (froms : List String) (fi fj : Flight) : Bool :=
  fi.To == fj.From || !(froms.contains fj.To)

/-- The function `calculateSort`: the outcome, and the caller's slice after
the call. The swaps of `sort.Slice` on more than 12 flights are the parameter
`pdqSwaps`. -/
def calculateSort (pdqSwaps : PdqSwaps) (flights : List Flight) : Outcome × List Flight :=
  match flights with
  | [f] => (Outcome.value f, flights)
  | [f0, f1] =>
    if f0.From == f1.To then (Outcome.value ⟨f1.From, f0.To⟩, flights)
    else (Outcome.value ⟨f0.From, f1.To⟩, flights)
  | _ =>
    let froms := fromsOf flights
    let sorted := sortSlice pdqSwaps (sortLess froms) flights
    match sorted[0]?, sorted[sorted.length - 1]? with
    | some first, some last => (Outcome.value ⟨first.From, last.To⟩, sorted)
    | _, _ => (Outcome.panicIndexOutOfRange, sorted)

/-- The function `Calculate`: summarises a list of flights to a single flight
between the list source and destination airports. -/
def Calculate (pdqSwaps : PdqSwaps) (flights : List Flight) : Outcome × List Flight :=
  calculateSort pdqSwaps flights

/-! ## calculateReduce -/

/-- One run of `for _, f := range unprocessed` in `calculateReduce`, from the
current `route` and the `unmatched` gathered so far. -/
def reducePass : Flight → List Flight → List Flight → Flight × List Flight
  | route, unmatched, [] => (route, unmatched)
  | route, unmatched, f :: rest =>
    if route.From == f.To then reducePass ⟨f.From, route.To⟩ unmatched rest
    else if route.To == f.From then reducePass ⟨route.From, f.To⟩ unmatched rest
    else reducePass route (unmatched ++ [f]) rest

/-- The label `loop:` of `calculateReduce`: a pass, then `goto loop` on the
unmatched flights when there are any. One unit of fuel per pass. -/
def reduceLoop : Nat → Flight → List Flight → Option Flight
  | 0, _, _ => none
  | fuel + 1, route, unprocessed =>
    let r := reducePass route [] unprocessed
    if r.2.length > 0 then reduceLoop fuel r.1 r.2 else some r.1

/-- The function `calculateReduce`, with `fuel` passes allowed. -/
def calculateReduce (fuel : Nat) (flights : List Flight) : Option Outcome :=
  match flights with
  | [] => some Outcome.panicIndexOutOfRange
  | [f] => some (Outcome.value f)
  | f :: rest => (reduceLoop fuel f rest).map Outcome.value

/-- State of `calculateReduce` (route, unprocessed) after `k` passes. -/
def reduceState (route : Flight) (unprocessed : List Flight) : Nat → Flight × List Flight
  | 0 => (route, unprocessed)
  | k + 1 =>
    let s := reduceState route unprocessed k
    reducePass s.1 [] s.2

/-! ## Path inputs -/

/-- The edges `(v0,v1), (v1,v2), ..., (v(N-1),vN)` of the path through the
vertices `vs = [v0, ..., vN]`. -/
def pathEdges (vs : List String) : List Flight :=
  List.zipWith Flight.mk vs vs.tail

/-- The vertex `v i` of the path `vs` (the empty string past its end). -/
def vtx (vs : List String) (i : Nat) : String :=
  vs.getD i ""

/-- The edge `(v i, v (i+1))` of the path `vs`. -/
def edgeAt (vs : List String) (i : Nat) : Flight :=
  ⟨vtx vs i, vtx vs (i + 1)⟩

/-- The edges `(v a, v (a+1)), ..., (v (b-1), v b)` of the path `vs`. -/
def edgesRange (vs : List String) (a b : Nat) : List Flight :=
  (List.range' a (b - a)).map (edgeAt vs)

/-- Loop invariant of `calculateReduce` on a path input: the route spans the
vertices `v a .. v b`, and the edges it spans together with the flights still
to be placed are the edges of the path. -/
def RouteInv (vs : List String) (route : Flight) (todo : List Flight) : Prop :=
  ∃ a b, a < b ∧ b ≤ vs.length - 1 ∧ route = ⟨vtx vs a, vtx vs b⟩ ∧
    (edgesRange vs a b ++ todo).Perm (pathEdges vs)

/-- Every pass over a non-empty list of flights places at least one. -/
def EveryPassMatches (route : Flight) (todo : List Flight) : Prop :=
  ∀ k, (reduceState route todo k).2 ≠ [] →
    (reduceState route todo (k + 1)).2.length < (reduceState route todo k).2.length

/-- Some pass over a non-empty list of flights places none. -/
def SomePassStuck (route : Flight) (todo : List Flight) : Prop :=
  ∃ k, (reduceState route todo k).2 ≠ [] ∧
    (reduceState route todo (k + 1)).2.length = (reduceState route todo k).2.length

/-! ## unmarshalJSON -/

/-- The loop `for i, f := range in` of `unmarshalJSON`, `out` holding the
flights written so far: a pair with an empty string ends the call with the
error `invalid flight: [%s, %s]`. -/
def unmarshalJSONLoop : List (String × String) → List Flight → Except String (List Flight)
  | [], out => Except.ok out
  | f :: rest, out =>
    if f.1 == "" || f.2 == "" then
      Except.error ("invalid flight: [" ++ f.1 ++ ", " ++ f.2 ++ "]")
    else unmarshalJSONLoop rest (out ++ [⟨f.1, f.2⟩])

/-- The function `unmarshalJSON`. The call `json.Unmarshal(data, &in)` of the
standard library, decoding into a `[][2]string`, is the parameter
`jsonUnmarshal`. -/
def unmarshalJSON {D : Type} (jsonUnmarshal : D → Except String (List (String × String)))
    (data : D) : Except String (List Flight) :=
  match jsonUnmarshal data with
  | Except.error err => Except.error err
  | Except.ok decoded => unmarshalJSONLoop decoded []

/-! ## Orderings -/

/-- A comparison is a strict weak ordering on the flights of a list: it is
irreflexive, transitive, and being incomparable is transitive. -/
def StrictWeakOrderOn (less : Flight → Flight → Bool) (l : List Flight) : Prop :=
  (∀ a ∈ l, less a a = false) ∧
  (∀ a ∈ l, ∀ b ∈ l, ∀ c ∈ l, less a b = true → less b c = true → less a c = true) ∧
  (∀ a ∈ l, ∀ b ∈ l, ∀ c ∈ l, (less a b = false ∧ less b a = false) →
    (less b c = false ∧ less c b = false) → (less a c = false ∧ less c a = false))

/-- The flights read left to right are a walk: each one starts where the one
before it ends, `flights[k].To = flights[k+1].From` for every `k < N-1`. -/
def IsWalk (flights : List Flight) : Prop :=
  ∀ k ∈ List.range (flights.length - 1),
    (flights[k]?).map Flight.To = (flights[k + 1]?).map Flight.From

instance (flights : List Flight) : Decidable (IsWalk flights) :=
  inferInstanceAs (Decidable (∀ k ∈ List.range (flights.length - 1),
    (flights[k]?).map Flight.To = (flights[k + 1]?).map Flight.From))

/-- The flights of a list whose `To` is not in the map `froms` that
`calculateSort` builds from the list. -/
def notInFroms (flights : List Flight) : List Flight :=
  flights.filter (fun f => !((fromsOf flights).contains f.To))

/-! ## The insertion sort as a function on lists -/

/-- What the inner loop of the insertion sort does to the sorted part, read
from right to left: `x` moves left past every `y` with `less x y`, and stops
at the first `y` for which `less x y` fails. -/
def insertRev (less : Flight → Flight → Bool) (x : Flight) : List Flight → List Flight
  | [] => [x]
  | y :: r => if less x y then y :: insertRev less x r else x :: y :: r


/-! ## unmarshalCustom

A Go `[]byte` or `string` is the list of its bytes, each byte a `Char`. The
index `i` into `s` is kept as the suffix `s[i:]` still to be read: `s[i]` is
its head, `i++` goes to its tail, `i == len(s)` says it is empty, and reading
`s[i]` on the empty suffix is the runtime panic of an index out of range. -/

/-- What a call of `unmarshalCustom` ends in: the flights returned with a
`nil` error, the error `fmt.Errorf(format, args...)` (or `errors.New(format)`),
or the runtime panic of an index out of range. -/
inductive UnmarshalOutcome where
  | flights (out : List Flight)
  | error (format : String) (args : List Nat)
  | panicIndexOutOfRange
deriving DecidableEq, Repr

/-- What one turn of the loop `for i := 0; i < len(s);` of `unmarshalCustom`
ends in: `done f` at the `break` (`i == len(s)`), `next f rest` at the end of
the body with `rest = s[i:]`, an error with its format, or a panic. -/
inductive ElemStep where
  | done (f : Flight)
  | next (f : Flight) (rest : List Char)
  | error (format : String)
  | panicIndexOutOfRange
deriving DecidableEq, Repr

/-- The loop `for s[i] != '"' { i++ }` followed by the `i++` that steps over
the quote: the bytes `s[j:i]` before the quote and the suffix after it; `none`
when there is no quote, where `s[i]` runs out of range. -/
def scanQuote : List Char → Option (List Char × List Char)
  | [] => none
  | c :: rest =>
    if c = '"' then some ([], rest)
    else
      match scanQuote rest with
      | some (word, after) => some (c :: word, after)
      | none => none

/-- The loop `for s[i] == ' ' { i++ }`: the suffix from the first byte that is
not a space; `none` when the end is reached, where `s[i]` runs out of range. -/
def skipSpaces : List Char → Option (List Char)
  | [] => none
  | c :: rest => if c = ' ' then skipSpaces rest else some (c :: rest)

/-- The end of the body of the loop of `unmarshalCustom`, after the `]` of the
element `f`: the `break` at the end of `s`, or the comma, the spaces after it
and the next turn. -/
def parseAfterElem (f : Flight) : List Char → ElemStep
  | [] => ElemStep.done f
  | c :: rest =>
    if c ≠ ',' then ElemStep.error "invalid syntax after element %d"
    else
      match skipSpaces rest with
      | none => ElemStep.panicIndexOutOfRange
      | some next => ElemStep.next f next

/-- The body of the loop of `unmarshalCustom` from the second string on: the
opening quote, the bytes of `To`, the closing `]`. -/
def parseTo (fromBytes : List Char) : List Char → ElemStep
  | [] => ElemStep.panicIndexOutOfRange
  | c :: rest =>
    if c ≠ '"' then ElemStep.error "JSON string expected at element %d"
    else
      match scanQuote rest with
      | none => ElemStep.panicIndexOutOfRange
      | some (toBytes, after) =>
        match after with
        | [] => ElemStep.panicIndexOutOfRange
        | c2 :: rest2 =>
          if c2 ≠ ']' then ElemStep.error "JSON array expected at element %d"
          else parseAfterElem ⟨String.mk fromBytes, String.mk toBytes⟩ rest2

/-- The body of the loop of `unmarshalCustom` after the first string: the
comma and the spaces after it. -/
def parseComma (fromBytes : List Char) : List Char → ElemStep
  | [] => ElemStep.panicIndexOutOfRange
  | c :: rest =>
    if c ≠ ',' then ElemStep.error "JSON array of 2 expected at element %d"
    else
      match skipSpaces rest with
      | none => ElemStep.panicIndexOutOfRange
      | some next => parseTo fromBytes next

/-- The body of the loop of `unmarshalCustom`, entered with `i < len(s)`. -/
def parseElem : List Char → ElemStep
  | [] => ElemStep.panicIndexOutOfRange
  | c :: rest =>
    if c ≠ '[' then ElemStep.error "JSON array expected at element %d"
    else
      match rest with
      | [] => ElemStep.panicIndexOutOfRange
      | c1 :: rest1 =>
        if c1 ≠ '"' then ElemStep.error "JSON string expected at element %d"
        else
          match scanQuote rest1 with
          | none => ElemStep.panicIndexOutOfRange
          | some (fromBytes, after) => parseComma fromBytes after

/-- The loop `for i := 0; i < len(s);` of `unmarshalCustom`, with the number
`elem` of the element and the flights `out` appended so far. One unit of fuel
per turn; `none` when the fuel runs out. -/
def unmarshalCustomLoop : Nat → List Char → Nat → List Flight → Option UnmarshalOutcome
  | _, [], _, out => some (UnmarshalOutcome.flights out)
  | 0, _ :: _, _, _ => none
  | fuel + 1, c :: rest, elem, out =>
    match parseElem (c :: rest) with
    | ElemStep.done f => some (UnmarshalOutcome.flights (out ++ [f]))
    | ElemStep.next f next => unmarshalCustomLoop fuel next (elem + 1) (out ++ [f])
    | ElemStep.error format => some (UnmarshalOutcome.error format [elem])
    | ElemStep.panicIndexOutOfRange => some UnmarshalOutcome.panicIndexOutOfRange

/-- The function `unmarshalCustom`. The loop is given as many turns as `s` has
bytes. -/
def unmarshalCustom (data : List Char) : Option UnmarshalOutcome :=
  if data.length = 0 then some (UnmarshalOutcome.flights [])
  else if data.head? ≠ some '[' ∨ data.getLast? ≠ some ']' then
    some (UnmarshalOutcome.error "JSON array expected" [])
  else
    let s := (data.drop 1).dropLast
    let nquote := s.count '"'
    if nquote % 2 ≠ 0 then
      some (UnmarshalOutcome.error "invalid syntax, missing string quote" [])
    else unmarshalCustomLoop s.length s 1 []

/-- The text of one flight, `["From", "To"]`. -/
def encodeElem (f : Flight) : List Char :=
  ['[', '"'] ++ f.From.data ++ ['"', ',', ' ', '"'] ++ f.To.data ++ ['"', ']']

/-- The texts of the flights joined by `, `. -/
def encodeElems : List Flight → List Char
  | [] => []
  | [f] => encodeElem f
  | f :: g :: rest => encodeElem f ++ [',', ' '] ++ encodeElems (g :: rest)

/-- The text `[` + the elements `["From", "To"]` joined by `, ` + `]`. -/
def encodeFlights (fs : List Flight) : List Char :=
  '[' :: (encodeElems fs ++ [']'])


/-! ## marshalAppend -/

/-- The bytes `strconv.AppendQuote` of the Go standard library writes between
the two quotes: a double quote or a backslash gets a backslash before it, and
any other printable ASCII byte (`0x20` to `0x7E`) is copied. What it writes
from the first other byte on (control characters, `0x7F`, the bytes of
non-ASCII runes) is the parameter `escapeRest`. -/
def quoteBytes (escapeRest : List Char → List Char) : List Char → List Char
  | [] => []
  | c :: rest =>
    if c = '"' ∨ c = '\\' then '\\' :: c :: quoteBytes escapeRest rest
    else if 0x20 ≤ c.toNat ∧ c.toNat ≤ 0x7E then c :: quoteBytes escapeRest rest
    else escapeRest (c :: rest)

/-- The call `strconv.AppendQuote(b, s)`: `b`, a double quote, the quoted
bytes of `s`, a double quote. -/
def appendQuote (escapeRest : List Char → List Char) (b : List Char) (s : String) :
    List Char :=
  b ++ '"' :: (quoteBytes escapeRest s.data ++ ['"'])

/-- The function `marshalAppend`: the bytes `b` it hands to `w.Write`, and the
error of `w.Write(b)`, which it returns (`none` is the `nil` error). The
writer `w` is the parameter `write`. -/
def marshalAppend (escapeRest : List Char → List Char) (write : List Char → Option String)
    (flight : Flight) : List Char × Option String :=
  let b : List Char := []
  let b := b ++ ['[']
  let b := appendQuote escapeRest b flight.From
  let b := b ++ [',']
  let b := appendQuote escapeRest b flight.To
  let b := b ++ [']']
  let b := b ++ ['\n']
  (b, write b)

/-- The byte is an ASCII letter or digit: `0`-`9`, `A`-`Z` or `a`-`z`. -/
def isLetterOrDigit (c : Char) : Bool :=
  (decide (48 ≤ c.toNat) && decide (c.toNat ≤ 57)) ||
  (decide (65 ≤ c.toNat) && decide (c.toNat ≤ 90)) ||
  (decide (97 ≤ c.toNat) && decide (c.toNat ≤ 122))


/-! ## Lemmas on paths -/

theorem vtx_inj {vs : List String} (hnd : vs.Nodup) {i j : Nat}
    (hi : i < vs.length) (hj : j < vs.length) (h : vtx vs i = vtx vs j) : i = j := by
  unfold vtx at h
  rw [List.getD_eq_getElem vs "" hi, List.getD_eq_getElem vs "" hj] at h
  exact (hnd.getElem_inj_iff).1 h

theorem pathEdges_eq_edgesRange (vs : List String) :
    pathEdges vs = edgesRange vs 0 (vs.length - 1) := by
  unfold pathEdges edgesRange
  apply List.ext_getElem
  · simp
  · intro n h1 h2
    simp only [List.length_zipWith, List.length_tail] at h1
    have hn : n < vs.length - 1 := by omega
    have hn1 : n + 1 < vs.length := by omega
    have hn0 : n < vs.length := by omega
    simp only [List.getElem_zipWith, List.getElem_tail, List.getElem_map,
      List.getElem_range', edgeAt, vtx]
    rw [List.getD_eq_getElem vs "" (by omega : 0 + 1 * n < vs.length),
      List.getD_eq_getElem vs "" (by omega : 0 + 1 * n + 1 < vs.length)]
    simp

theorem length_edgesRange (vs : List String) (a b : Nat) :
    (edgesRange vs a b).length = b - a := by
  simp [edgesRange]

theorem mem_edgesRange {vs : List String} {a b : Nat} {f : Flight} :
    f ∈ edgesRange vs a b ↔ ∃ i, a ≤ i ∧ i < b ∧ f = edgeAt vs i := by
  unfold edgesRange
  simp only [List.mem_map, List.mem_range'_1]
  constructor
  · rintro ⟨i, ⟨h1, h2⟩, rfl⟩
    exact ⟨i, h1, by omega, rfl⟩
  · rintro ⟨i, h1, h2, rfl⟩
    exact ⟨i, ⟨h1, by omega⟩, rfl⟩

theorem mem_pathEdges {vs : List String} {f : Flight} :
    f ∈ pathEdges vs ↔ ∃ i, i < vs.length - 1 ∧ f = edgeAt vs i := by
  rw [pathEdges_eq_edgesRange, mem_edgesRange]
  constructor
  · rintro ⟨i, _, h2, h3⟩
    exact ⟨i, h2, h3⟩
  · rintro ⟨i, h2, h3⟩
    exact ⟨i, Nat.zero_le _, h2, h3⟩

theorem edgesRange_cons (vs : List String) {a b : Nat} (h : a < b) :
    edgesRange vs a b = edgeAt vs a :: edgesRange vs (a + 1) b := by
  unfold edgesRange
  have : b - a = (b - (a + 1)) + 1 := by omega
  rw [this, List.range'_succ]
  simp

theorem edgesRange_concat (vs : List String) {a b : Nat} (h : a ≤ b) :
    edgesRange vs a (b + 1) = edgesRange vs a b ++ [edgeAt vs b] := by
  unfold edgesRange
  have : b + 1 - a = (b - a) + 1 := by omega
  rw [this, List.range'_concat]
  have h2 : a + (b - a) = b := by omega
  simp [h2]

/-! ## Lemmas on a pass of calculateReduce -/

theorem reducePass_length_le (route : Flight) (um rest : List Flight) :
    (reducePass route um rest).2.length ≤ um.length + rest.length := by
  induction rest generalizing route um with
  | nil => simp [reducePass]
  | cons f rest ih =>
    unfold reducePass
    split_ifs
    · have := ih ⟨f.From, route.To⟩ um
      simp only [List.length_cons]; omega
    · have := ih ⟨route.From, f.To⟩ um
      simp only [List.length_cons]; omega
    · have := ih route (um ++ [f])
      simp only [List.length_append, List.length_cons, List.length_nil] at this
      simp only [List.length_cons]; omega

/-- A pass that keeps every flight changes nothing: the route is the same, the
unmatched flights are the unprocessed ones in their order, and no flight
touches the route. -/
theorem reducePass_of_length_eq (route : Flight) (um rest : List Flight)
    (h : (reducePass route um rest).2.length = um.length + rest.length) :
    reducePass route um rest = (route, um ++ rest) ∧
      ∀ f ∈ rest, ¬ route.From = f.To ∧ ¬ route.To = f.From := by
  induction rest generalizing route um with
  | nil => simp [reducePass]
  | cons f rest ih =>
    unfold reducePass at h ⊢
    split_ifs at h ⊢ with h1 h2
    · have := reducePass_length_le ⟨f.From, route.To⟩ um rest
      simp only [List.length_cons] at h; omega
    · have := reducePass_length_le ⟨route.From, f.To⟩ um rest
      simp only [List.length_cons] at h; omega
    · have h3 := ih route (um ++ [f]) (by
        simp only [List.length_append, List.length_cons, List.length_nil] at h ⊢; omega)
      refine ⟨by simpa using h3.1, ?_⟩
      intro g hg
      rcases List.mem_cons.1 hg with rfl | hg
      · exact ⟨by simpa using h1, by simpa using h2⟩
      · exact h3.2 g hg

theorem reducePass_routeInv {vs : List String} (hnd : vs.Nodup) (route : Flight)
    (um rest : List Flight) (h : RouteInv vs route (um ++ rest)) :
    RouteInv vs (reducePass route um rest).1 (reducePass route um rest).2 := by
  induction rest generalizing route um with
  | nil => simpa [reducePass] using h
  | cons f rest ih =>
    obtain ⟨a, b, hab, hb, hr, hp⟩ := h
    have hf : f ∈ pathEdges vs :=
      hp.subset (List.mem_append_right _ (List.mem_append_right _ (List.mem_cons_self _ _)))
    obtain ⟨i, hi, rfl⟩ := mem_pathEdges.1 hf
    unfold reducePass
    split_ifs with h1 h2
    · apply ih
      have h1 : route.From = (edgeAt vs i).To := by simpa using h1
      rw [hr] at h1
      simp only [edgeAt] at h1
      have ha : a = i + 1 := vtx_inj hnd (by omega) (by omega) h1
      subst ha
      refine ⟨i, b, by omega, hb, by simp [hr, edgeAt], ?_⟩
      rw [edgesRange_cons vs (by omega : i < b)]
      refine List.Perm.trans ?_ hp
      simp only [List.cons_append]
      exact ((List.Perm.append_left _ List.perm_middle).trans List.perm_middle).symm
    · apply ih
      have h2 : route.To = (edgeAt vs i).From := by simpa using h2
      rw [hr] at h2
      simp only [edgeAt] at h2
      have hbi : b = i := vtx_inj hnd (by omega) (by omega) h2
      subst hbi
      refine ⟨a, b + 1, by omega, by omega, by simp [hr, edgeAt], ?_⟩
      rw [edgesRange_concat vs (by omega : a ≤ b)]
      refine List.Perm.trans ?_ hp
      rw [List.append_assoc]
      exact List.Perm.append_left _ (by
        simpa using (List.perm_middle :
          (um ++ edgeAt vs b :: rest).Perm (edgeAt vs b :: (um ++ rest))).symm)
    · apply ih
      refine ⟨a, b, hab, hb, hr, ?_⟩
      simpa using hp

/-- On a path input, while flights remain to be placed, one of them touches
the route. -/
theorem routeInv_exists_match {vs : List String} (hnd : vs.Nodup) {route : Flight}
    {todo : List Flight} (h : RouteInv vs route todo) (hne : todo ≠ []) :
    ∃ f ∈ todo, route.From = f.To ∨ route.To = f.From := by
  obtain ⟨a, b, hab, hb, hr, hp⟩ := h
  have hlen := hp.length_eq
  rw [pathEdges_eq_edgesRange, List.length_append, length_edgesRange,
    length_edgesRange] at hlen
  have hpos : 0 < todo.length := List.length_pos.2 hne
  by_cases ha : 0 < a
  · have hmem : edgeAt vs (a - 1) ∈ edgesRange vs a b ++ todo :=
      hp.symm.subset (mem_pathEdges.2 ⟨a - 1, by omega, rfl⟩)
    rcases List.mem_append.1 hmem with hin | hin
    · obtain ⟨j, hj1, hj2, hj3⟩ := mem_edgesRange.1 hin
      have hv : vtx vs (a - 1) = vtx vs j := by
        have := congrArg Flight.From hj3
        simpa [edgeAt] using this
      have := vtx_inj hnd (by omega) (by omega) hv
      omega
    · refine ⟨_, hin, Or.inl ?_⟩
      have hs : a - 1 + 1 = a := by omega
      simp [hr, edgeAt, hs]
  · have hmem : edgeAt vs b ∈ edgesRange vs a b ++ todo :=
      hp.symm.subset (mem_pathEdges.2 ⟨b, by omega, rfl⟩)
    rcases List.mem_append.1 hmem with hin | hin
    · obtain ⟨j, hj1, hj2, hj3⟩ := mem_edgesRange.1 hin
      have hv : vtx vs b = vtx vs j := by
        have := congrArg Flight.From hj3
        simpa [edgeAt] using this
      have := vtx_inj hnd (by omega) (by omega) hv
      omega
    · refine ⟨_, hin, Or.inr ?_⟩
      simp [hr, edgeAt]

/-- On a path input, once no flight remains the route is the whole path. -/
theorem routeInv_nil {vs : List String} {route : Flight} (h : RouteInv vs route []) :
    route = ⟨vtx vs 0, vtx vs (vs.length - 1)⟩ := by
  obtain ⟨a, b, hab, hb, hr, hp⟩ := h
  have hlen := hp.length_eq
  rw [pathEdges_eq_edgesRange, List.length_append, length_edgesRange,
    length_edgesRange] at hlen
  simp only [List.length_nil] at hlen
  have ha : a = 0 := by omega
  have hb2 : b = vs.length - 1 := by omega
  rw [hr, ha, hb2]

/-- On a path input, a pass over a non-empty list of flights places at least
one of them. -/
theorem reducePass_length_lt {vs : List String} (hnd : vs.Nodup) {route : Flight}
    {todo : List Flight} (h : RouteInv vs route todo) (hne : todo ≠ []) :
    (reducePass route [] todo).2.length < todo.length := by
  have hle := reducePass_length_le route [] todo
  simp only [List.length_nil, Nat.zero_add] at hle
  rcases Nat.lt_or_ge (reducePass route [] todo).2.length todo.length with hlt | hge
  · exact hlt
  · exfalso
    have heq : (reducePass route [] todo).2.length = ([] : List Flight).length + todo.length := by
      simp only [List.length_nil, Nat.zero_add]; omega
    obtain ⟨f, hf, hm⟩ := routeInv_exists_match hnd h hne
    have := (reducePass_of_length_eq route [] todo heq).2 f hf
    rcases hm with hm | hm
    · exact this.1 hm
    · exact this.2 hm

/-- The first flight of a path input starts the route. -/
theorem routeInv_init {vs : List String} {f : Flight} {rest : List Flight}
    (hp : (f :: rest).Perm (pathEdges vs)) : RouteInv vs f rest := by
  have hf : f ∈ pathEdges vs := hp.subset (List.mem_cons_self _ _)
  obtain ⟨i, hi, rfl⟩ := mem_pathEdges.1 hf
  refine ⟨i, i + 1, by omega, by omega, rfl, ?_⟩
  rw [edgesRange_cons vs (by omega : i < i + 1)]
  have : edgesRange vs (i + 1) (i + 1) = [] := by simp [edgesRange]
  rw [this]
  simpa using hp

theorem reduceLoop_of_routeInv {vs : List String} (hnd : vs.Nodup) (fuel : Nat)
    (route : Flight) (todo : List Flight) (h : RouteInv vs route todo)
    (hfuel : todo.length < fuel) :
    reduceLoop fuel route todo = some ⟨vtx vs 0, vtx vs (vs.length - 1)⟩ := by
  induction fuel generalizing route todo with
  | zero => omega
  | succ n ih =>
    have hinv := reducePass_routeInv hnd route [] todo (by simpa using h)
    unfold reduceLoop
    simp only
    split_ifs with hpos
    · have hne : todo ≠ [] := by
        rintro rfl
        simp [reducePass] at hpos
      have hlt := reducePass_length_lt hnd h hne
      exact ih _ _ hinv (by omega)
    · have hnil : (reducePass route [] todo).2 = [] := by
        apply List.eq_nil_of_length_eq_zero
        omega
      rw [hnil] at hinv
      rw [routeInv_nil hinv]

theorem vtx_zero_cons (o : String) (l : List String) : vtx (o :: l) 0 = o := by
  simp [vtx]

theorem vtx_last_concat (o d : String) (mid : List String) :
    vtx (o :: (mid ++ [d])) ((o :: (mid ++ [d])).length - 1) = d := by
  simp [vtx]

/-! ## Lemmas on the insertion sort -/

theorem swapAdj_perm (data : List Flight) (j : Nat) : (swapAdj data j).Perm data := by
  induction data generalizing j with
  | nil => cases j <;> simp [swapAdj]
  | cons x rest ih =>
    cases j with
    | zero =>
      cases rest with
      | nil => simp [swapAdj]
      | cons y rest => simpa [swapAdj] using List.Perm.swap x y rest
    | succ j =>
      cases rest with
      | nil => simp [swapAdj]
      | cons y rest => simpa [swapAdj] using ih j

theorem insertLoop_perm (less : Flight → Flight → Bool) (j : Nat) (data : List Flight) :
    (insertLoop less j data).Perm data := by
  induction j generalizing data with
  | zero => simp [insertLoop]
  | succ j ih =>
    unfold insertLoop
    split
    · split_ifs
      · exact (ih _).trans (swapAdj_perm data j)
      · exact List.Perm.refl _
    · exact List.Perm.refl _

theorem foldl_insertLoop_perm (less : Flight → Flight → Bool) (is : List Nat)
    (data : List Flight) :
    (is.foldl (fun d i => insertLoop less i d) data).Perm data := by
  induction is generalizing data with
  | nil => simp
  | cons i is ih =>
    simp only [List.foldl_cons]
    exact (ih _).trans (insertLoop_perm less i data)

theorem insertionSort_perm (less : Flight → Flight → Bool) (data : List Flight) :
    (insertionSort less data).Perm data :=
  foldl_insertLoop_perm less _ data

/-! ## Lemmas on sort.Slice -/

theorem cons_set_perm (t : List Flight) (j : Nat) (x y : Flight) (h : t[j]? = some y) :
    (y :: t.set j x).Perm (x :: t) := by
  induction t generalizing j with
  | nil => simp at h
  | cons a t ih =>
    cases j with
    | zero =>
      simp only [List.getElem?_cons_zero, Option.some.injEq] at h
      subst h
      simpa using List.Perm.swap x a t
    | succ j =>
      simp only [List.getElem?_cons_succ] at h
      simp only [List.set_cons_succ]
      exact (List.Perm.swap a y _).trans
        ((List.Perm.cons a (ih j h)).trans (List.Perm.swap x a t))

theorem swapAt_perm (data : List Flight) (i j : Nat) : (swapAt data i j).Perm data := by
  induction data generalizing i j with
  | nil => simp [swapAt]
  | cons a t ih =>
    unfold swapAt
    split
    · rename_i x y hx hy
      cases i with
      | zero =>
        simp only [List.getElem?_cons_zero, Option.some.injEq] at hx
        subst hx
        cases j with
        | zero =>
          simp only [List.getElem?_cons_zero, Option.some.injEq] at hy
          subst hy
          simp
        | succ j =>
          simp only [List.getElem?_cons_succ] at hy
          simpa using cons_set_perm t j a y hy
      | succ i =>
        simp only [List.getElem?_cons_succ] at hx
        cases j with
        | zero =>
          simp only [List.getElem?_cons_zero, Option.some.injEq] at hy
          subst hy
          simpa using cons_set_perm t i a x hx
        | succ j =>
          simp only [List.getElem?_cons_succ] at hy
          have h := ih i j
          simp only [swapAt, hx, hy] at h
          simpa using List.Perm.cons a h
    · exact List.Perm.refl _

theorem applySwaps_perm (swaps : List (Nat × Nat)) (data : List Flight) :
    (applySwaps swaps data).Perm data := by
  unfold applySwaps
  induction swaps generalizing data with
  | nil => simp
  | cons p swaps ih =>
    simp only [List.foldl_cons]
    exact (ih _).trans (swapAt_perm data p.1 p.2)

/-- The slice after `sort.Slice` is a permutation of the slice before. -/
theorem sortSlice_perm (pdqSwaps : PdqSwaps) (less : Flight → Flight → Bool)
    (data : List Flight) : (sortSlice pdqSwaps less data).Perm data := by
  unfold sortSlice
  split_ifs
  · exact insertionSort_perm less data
  · exact applySwaps_perm _ data

/-- On at most 12 elements `sort.Slice` is the insertion sort. -/
theorem sortSlice_of_length_le (pdqSwaps : PdqSwaps) (less : Flight → Flight → Bool)
    (data : List Flight) (h : data.length ≤ 12) :
    sortSlice pdqSwaps less data = insertionSort less data := by
  unfold sortSlice
  rw [if_pos h]

/-- On at most 12 flights `calculateSort` does not depend on the swaps of the
long sort. -/
theorem calculateSort_of_length_le (pdqSwaps : PdqSwaps) (flights : List Flight)
    (h : flights.length ≤ 12) :
    calculateSort pdqSwaps flights = calculateSort (fun _ _ => []) flights := by
  unfold calculateSort
  simp only [sortSlice_of_length_le _ _ flights h]

/-! ## Lemmas on the loop of calculateReduce -/

theorem reduceState_succ_left (route : Flight) (todo : List Flight) (k : Nat) :
    reduceState route todo (k + 1) =
      reduceState (reducePass route [] todo).1 (reducePass route [] todo).2 k := by
  induction k with
  | zero => simp [reduceState]
  | succ k ih =>
    rw [reduceState, ih]
    simp [reduceState]

theorem reduceState_nil (route : Flight) (k : Nat) :
    reduceState route [] k = (route, []) := by
  induction k with
  | zero => simp [reduceState]
  | succ k ih => simp [reduceState, ih, reducePass]

theorem reduceState_length_succ_le (route : Flight) (todo : List Flight) (k : Nat) :
    (reduceState route todo (k + 1)).2.length ≤ (reduceState route todo k).2.length := by
  have := reducePass_length_le (reduceState route todo k).1 [] (reduceState route todo k).2
  simpa [reduceState] using this

theorem not_everyPassMatches_iff (route : Flight) (todo : List Flight) :
    ¬ EveryPassMatches route todo ↔ SomePassStuck route todo := by
  unfold EveryPassMatches SomePassStuck
  constructor
  · intro h
    push_neg at h
    obtain ⟨k, h1, h2⟩ := h
    exact ⟨k, h1, Nat.le_antisymm (reduceState_length_succ_le route todo k) h2⟩
  · rintro ⟨k, h1, h2⟩ h
    have := h k h1
    omega

theorem reduceLoop_of_everyPassMatches (fuel : Nat) (route : Flight) (todo : List Flight)
    (h : EveryPassMatches route todo) (hfuel : todo.length < fuel) :
    ∃ r, reduceLoop fuel route todo = some r := by
  induction fuel generalizing route todo with
  | zero => omega
  | succ n ih =>
    unfold reduceLoop
    simp only
    split_ifs with hpos
    · have hne : todo ≠ [] := by
        rintro rfl
        simp [reducePass] at hpos
      have h0 := h 0 (by simpa [reduceState] using hne)
      simp only [reduceState] at h0
      apply ih
      · intro k hk
        have := h (k + 1) (by rw [reduceState_succ_left]; exact hk)
        rw [reduceState_succ_left route todo (k + 1), reduceState_succ_left route todo k] at this
        exact this
      · omega
    · exact ⟨_, rfl⟩

theorem reduceLoop_stuck_zero (fuel : Nat) (route : Flight) (todo : List Flight)
    (hne : todo ≠ [])
    (h : (reducePass route [] todo).2.length = todo.length) :
    reduceLoop fuel route todo = none := by
  have heq := (reducePass_of_length_eq route [] todo (by simpa using h)).1
  simp only [List.nil_append] at heq
  induction fuel with
  | zero => rfl
  | succ n ih =>
    unfold reduceLoop
    simp only [heq]
    rw [if_pos (List.length_pos.2 hne)]
    exact ih

theorem reduceLoop_of_somePassStuck (fuel : Nat) (route : Flight) (todo : List Flight)
    (h : SomePassStuck route todo) : reduceLoop fuel route todo = none := by
  obtain ⟨k, h1, h2⟩ := h
  induction k generalizing fuel route todo with
  | zero =>
    simp only [reduceState] at h1 h2
    exact reduceLoop_stuck_zero fuel route todo h1 h2
  | succ k ih =>
    cases fuel with
    | zero => rfl
    | succ n =>
      rw [reduceState_succ_left route todo (k + 1), reduceState_succ_left route todo k] at h2
      rw [reduceState_succ_left route todo k] at h1
      unfold reduceLoop
      simp only
      split_ifs with hpos
      · exact ih n _ _ h1 h2
      · exfalso
        have hnil : (reducePass route [] todo).2 = [] := by
          apply List.eq_nil_of_length_eq_zero
          omega
        rw [hnil, reduceState_nil] at h1
        exact h1 rfl

theorem reduceState_routeInv {vs : List String} (hnd : vs.Nodup) {route : Flight}
    {todo : List Flight} (h : RouteInv vs route todo) (k : Nat) :
    RouteInv vs (reduceState route todo k).1 (reduceState route todo k).2 := by
  induction k with
  | zero => simpa [reduceState] using h
  | succ k ih =>
    simp only [reduceState]
    exact reducePass_routeInv hnd _ [] _ (by simpa using ih)

/-! ## Lemmas on unmarshalJSON -/

theorem unmarshalJSONLoop_ok (decoded : List (String × String)) (out : List Flight)
    (h : ∀ p ∈ decoded, p.1 ≠ "" ∧ p.2 ≠ "") :
    unmarshalJSONLoop decoded out =
      Except.ok (out ++ decoded.map (fun p => (⟨p.1, p.2⟩ : Flight))) := by
  induction decoded generalizing out with
  | nil => simp [unmarshalJSONLoop]
  | cons f rest ih =>
    have hf := h f (List.mem_cons_self _ _)
    unfold unmarshalJSONLoop
    rw [if_neg (by simp [hf.1, hf.2])]
    rw [ih _ (fun p hp => h p (List.mem_cons_of_mem _ hp))]
    simp

theorem unmarshalJSONLoop_error (decoded : List (String × String)) (out : List Flight)
    (h : ∃ p ∈ decoded, p.1 = "" ∨ p.2 = "") :
    ∃ e, unmarshalJSONLoop decoded out = Except.error e := by
  induction decoded generalizing out with
  | nil => simp at h
  | cons f rest ih =>
    unfold unmarshalJSONLoop
    split_ifs with hf
    · exact ⟨_, rfl⟩
    · obtain ⟨p, hp, hbad⟩ := h
      rcases List.mem_cons.1 hp with rfl | hp
      · exfalso
        apply hf
        rcases hbad with hb | hb <;> simp [hb]
      · exact ih _ ⟨p, hp, hbad⟩

/-! ## calculateReduce on a path input -/

/-- On a path input `calculateReduce` returns the flight between the ends of
the path. -/
theorem calculateReduce_of_path (o d : String) (mid : List String) (flights : List Flight)
    (hnd : (o :: (mid ++ [d])).Nodup)
    (hperm : flights.Perm (pathEdges (o :: (mid ++ [d]))))
    (fuel : Nat) (hfuel : flights.length ≤ fuel) :
    calculateReduce fuel flights = some (Outcome.value ⟨o, d⟩) := by
  have hlen := hperm.length_eq
  rw [pathEdges_eq_edgesRange, length_edgesRange] at hlen
  simp only [List.length_cons, List.length_append, List.length_nil] at hlen
  match flights, hperm, hfuel, hlen with
  | [], _, _, hlen => simp at hlen
  | [f], hperm, _, _ =>
    have h := routeInv_nil (routeInv_init hperm)
    rw [vtx_zero_cons, vtx_last_concat] at h
    simp [calculateReduce, h]
  | f :: g :: rest, hperm, hfuel, _ =>
    have h := reduceLoop_of_routeInv hnd fuel f (g :: rest) (routeInv_init hperm)
      (by simp only [List.length_cons] at hfuel ⊢; omega)
    rw [vtx_zero_cons, vtx_last_concat] at h
    simp [calculateReduce, h]

/-! ## The claims -/

/-- C1, evaluated on the code: the four flights `B->C, C->D, A->B, D->E` are a
permutation of the edges of the path `A->B->C->D->E`, whose vertices are
pairwise distinct, and on this list `Calculate` returns the flight `(B, E)`,
which is not the flight `(A, E)` between the ends of the path. -/
theorem calculate_path4_wrong_origin (pdqSwaps : PdqSwaps) :
    (["A", "B", "C", "D", "E"] : List String).Nodup ∧
    List.Perm [(⟨"B", "C"⟩ : Flight), ⟨"C", "D"⟩, ⟨"A", "B"⟩, ⟨"D", "E"⟩]
      (pathEdges ["A", "B", "C", "D", "E"]) ∧
    (Calculate pdqSwaps [⟨"B", "C"⟩, ⟨"C", "D"⟩, ⟨"A", "B"⟩, ⟨"D", "E"⟩]).1
      = Outcome.value ⟨"B", "E"⟩ ∧
    Outcome.value ⟨"B", "E"⟩ ≠ Outcome.value ⟨"A", "E"⟩ := by
  refine ⟨by decide, by decide, ?_, by decide⟩
  rw [Calculate, calculateSort_of_length_le pdqSwaps _ (by decide)]
  decide

/-- C2: for every path `o -> ... -> d` with pairwise distinct vertices and
every flight list that is a permutation of its edges, `calculateReduce`
returns the flight `(o, d)`, as soon as it is allowed as many passes as there
are flights. -/
theorem calculateReduce_path (o d : String) (mid : List String) (flights : List Flight)
    (hnd : (o :: (mid ++ [d])).Nodup)
    (hperm : flights.Perm (pathEdges (o :: (mid ++ [d]))))
    (fuel : Nat) (hfuel : flights.length ≤ fuel) :
    calculateReduce fuel flights = some (Outcome.value ⟨o, d⟩) :=
  calculateReduce_of_path o d mid flights hnd hperm fuel hfuel

theorem calculateReduce_path_witness :
    calculateReduce 4 [⟨"IND", "EWR"⟩, ⟨"SFO", "ATL"⟩, ⟨"GSO", "IND"⟩, ⟨"ATL", "GSO"⟩]
      = some (Outcome.value ⟨"SFO", "EWR"⟩) :=
  calculateReduce_path "SFO" "EWR" ["ATL", "GSO", "IND"]
    [⟨"IND", "EWR"⟩, ⟨"SFO", "ATL"⟩, ⟨"GSO", "IND"⟩, ⟨"ATL", "GSO"⟩]
    (by decide) (by decide) 4 (by decide)

/-- C3, evaluated on the code: on the flights `B->C, C->D, A->B, D->E`, a
permutation of the edges of the path `A->B->C->D->E` with pairwise distinct
vertices, `calculateSort` returns `(B, E)` and `calculateReduce` returns
`(A, E)`: the two do not agree. -/
theorem calculateSort_ne_calculateReduce_path4 (pdqSwaps : PdqSwaps) :
    (["A", "B", "C", "D", "E"] : List String).Nodup ∧
    List.Perm [(⟨"B", "C"⟩ : Flight), ⟨"C", "D"⟩, ⟨"A", "B"⟩, ⟨"D", "E"⟩]
      (pathEdges ["A", "B", "C", "D", "E"]) ∧
    (calculateSort pdqSwaps [⟨"B", "C"⟩, ⟨"C", "D"⟩, ⟨"A", "B"⟩, ⟨"D", "E"⟩]).1
      = Outcome.value ⟨"B", "E"⟩ ∧
    calculateReduce 4 [⟨"B", "C"⟩, ⟨"C", "D"⟩, ⟨"A", "B"⟩, ⟨"D", "E"⟩]
      = some (Outcome.value ⟨"A", "E"⟩) ∧
    some ((calculateSort pdqSwaps [⟨"B", "C"⟩, ⟨"C", "D"⟩, ⟨"A", "B"⟩, ⟨"D", "E"⟩]).1)
      ≠ calculateReduce 4 [⟨"B", "C"⟩, ⟨"C", "D"⟩, ⟨"A", "B"⟩, ⟨"D", "E"⟩] := by
  rw [calculateSort_of_length_le pdqSwaps _ (by decide)]
  decide

/-- C4, evaluated on the code: on the empty flight list `Calculate` ends in the
runtime panic of an index out of range (at `flights[0]`), with the list left
empty; it reports no failure to its caller. -/
theorem calculate_nil_panics (pdqSwaps : PdqSwaps) :
    Calculate pdqSwaps [] = (Outcome.panicIndexOutOfRange, []) := by
  rw [Calculate, calculateSort_of_length_le pdqSwaps _ (by decide)]
  decide

/-- C5: for every flight `f`, `Calculate [f]` returns `f`; and for every flight
list on which `Calculate` returns a flight `r`, `Calculate [r]` returns `r`. -/
theorem calculate_singleton (pdqSwaps : PdqSwaps) :
    (∀ f : Flight, (Calculate pdqSwaps [f]).1 = Outcome.value f) ∧
    (∀ (flights : List Flight) (r : Flight),
      (Calculate pdqSwaps flights).1 = Outcome.value r →
        (Calculate pdqSwaps [r]).1 = Outcome.value r) := by
  constructor
  · intro f
    rfl
  · intro _ r _
    rfl

theorem calculate_singleton_witness :
    (Calculate (fun _ _ => []) [⟨"SFO", "EWR"⟩]).1 = Outcome.value ⟨"SFO", "EWR"⟩ ∧
    (Calculate (fun _ _ => []) [⟨"ATL", "EWR"⟩, ⟨"SFO", "ATL"⟩]).1
      = Outcome.value ⟨"SFO", "EWR"⟩ ∧
    (Calculate (fun _ _ => []) [⟨"SFO", "EWR"⟩]).1 = Outcome.value ⟨"SFO", "EWR"⟩ :=
  ⟨(calculate_singleton (fun _ _ => [])).1 ⟨"SFO", "EWR"⟩, by decide,
    (calculate_singleton (fun _ _ => [])).2 [⟨"ATL", "EWR"⟩, ⟨"SFO", "ATL"⟩]
      ⟨"SFO", "EWR"⟩ (by decide)⟩

/-- C6: for two flights `A` and `B` with `A.To = B.From` and `A.From ≠ B.To`,
`Calculate [A, B]` and `Calculate [B, A]` both return `(A.From, B.To)`. -/
theorem calculate_pair (pdqSwaps : PdqSwaps) (A B : Flight) (hjoin : A.To = B.From)
    (hsimple : A.From ≠ B.To) :
    (Calculate pdqSwaps [A, B]).1 = Outcome.value ⟨A.From, B.To⟩ ∧
    (Calculate pdqSwaps [B, A]).1 = Outcome.value ⟨A.From, B.To⟩ := by
  constructor
  · simp [Calculate, calculateSort, hsimple]
  · simp [Calculate, calculateSort, hjoin]

theorem calculate_pair_witness :
    (Calculate (fun _ _ => []) [⟨"SFO", "ATL"⟩, ⟨"ATL", "EWR"⟩]).1
      = Outcome.value ⟨"SFO", "EWR"⟩ ∧
    (Calculate (fun _ _ => []) [⟨"ATL", "EWR"⟩, ⟨"SFO", "ATL"⟩]).1
      = Outcome.value ⟨"SFO", "EWR"⟩ :=
  calculate_pair (fun _ _ => []) ⟨"SFO", "ATL"⟩ ⟨"ATL", "EWR"⟩ (by decide) (by decide)

/-- C7 as stated fails: on the two flights `A->B, C->D`, which share no
airport, no number of passes makes `calculateReduce` end, neither with a
flight nor with an error. -/
theorem calculateReduce_two_components_never_returns :
    ¬ ∃ fuel, (calculateReduce fuel [⟨"A", "B"⟩, ⟨"C", "D"⟩]).isSome = true := by
  rintro ⟨fuel, h⟩
  have hnone : reduceLoop fuel ⟨"A", "B"⟩ [⟨"C", "D"⟩] = none :=
    reduceLoop_stuck_zero fuel _ _ (by decide) (by decide)
  simp [calculateReduce, hnone] at h

/-- C7, amended: for every non-empty flight list `f :: rest`, `calculateReduce`
returns a flight if and only if every pass over a non-empty retry list matches
at least one flight, and it then returns within as many passes as there are
flights; when some pass over a non-empty retry list matches no flight, no
number of passes makes it end. -/
theorem calculateReduce_returns_iff (f : Flight) (rest : List Flight) :
    ((∃ fuel r, calculateReduce fuel (f :: rest) = some (Outcome.value r)) ↔
      EveryPassMatches f rest) ∧
    (EveryPassMatches f rest →
      ∃ r, calculateReduce (f :: rest).length (f :: rest) = some (Outcome.value r)) ∧
    (SomePassStuck f rest → ∀ fuel, calculateReduce fuel (f :: rest) = none) := by
  have hret : EveryPassMatches f rest →
      ∃ r, calculateReduce (f :: rest).length (f :: rest) = some (Outcome.value r) := by
    intro h
    cases rest with
    | nil => exact ⟨f, rfl⟩
    | cons g rest =>
      obtain ⟨r, hr⟩ := reduceLoop_of_everyPassMatches (f :: g :: rest).length f (g :: rest) h
        (by simp)
      exact ⟨r, by simpa [calculateReduce] using hr⟩
  have hstuck : SomePassStuck f rest → ∀ fuel, calculateReduce fuel (f :: rest) = none := by
    intro h fuel
    cases rest with
    | nil =>
      obtain ⟨k, h1, _⟩ := h
      rw [reduceState_nil] at h1
      exact absurd rfl h1
    | cons g rest =>
      simp [calculateReduce, reduceLoop_of_somePassStuck fuel f (g :: rest) h]
  refine ⟨⟨?_, fun h => ?_⟩, hret, hstuck⟩
  · rintro ⟨fuel, r, hr⟩
    by_contra hne
    have := hstuck ((not_everyPassMatches_iff f rest).1 hne) fuel
    rw [this] at hr
    cases hr
  · obtain ⟨r, hr⟩ := hret h
    exact ⟨_, r, hr⟩

theorem calculateReduce_returns_iff_witness :
    EveryPassMatches ⟨"SFO", "ATL"⟩ [⟨"ATL", "EWR"⟩] :=
  (calculateReduce_returns_iff ⟨"SFO", "ATL"⟩ [⟨"ATL", "EWR"⟩]).1.1
    ⟨1, ⟨"SFO", "EWR"⟩, by decide⟩

/-- C8: when `json.Unmarshal` decodes the data into the pairs `decoded`,
`unmarshalJSON` returns an error if and only if some pair has an empty first
or second string; otherwise it returns one flight per pair, in the same
order, with `From` the first and `To` the second string of the pair. Every
flight of a successful result has a non-empty `From` and `To`. -/
theorem unmarshalJSON_spec {D : Type}
    (jsonUnmarshal : D → Except String (List (String × String))) (data : D)
    (decoded : List (String × String)) (hdec : jsonUnmarshal data = Except.ok decoded) :
    ((∃ e, unmarshalJSON jsonUnmarshal data = Except.error e) ↔
      ∃ p ∈ decoded, p.1 = "" ∨ p.2 = "") ∧
    ((¬ ∃ p ∈ decoded, p.1 = "" ∨ p.2 = "") →
      unmarshalJSON jsonUnmarshal data
        = Except.ok (decoded.map (fun p => (⟨p.1, p.2⟩ : Flight)))) ∧
    (∀ out, unmarshalJSON jsonUnmarshal data = Except.ok out →
      ∀ fl ∈ out, fl.From ≠ "" ∧ fl.To ≠ "") := by
  have hun : unmarshalJSON jsonUnmarshal data = unmarshalJSONLoop decoded [] := by
    simp [unmarshalJSON, hdec]
  have hgood : (¬ ∃ p ∈ decoded, p.1 = "" ∨ p.2 = "") →
      unmarshalJSONLoop decoded [] =
        Except.ok (decoded.map (fun p => (⟨p.1, p.2⟩ : Flight))) := by
    intro h
    have h2 : ∀ p ∈ decoded, p.1 ≠ "" ∧ p.2 ≠ "" := by
      intro p hp
      constructor
      · intro h1
        exact h ⟨p, hp, Or.inl h1⟩
      · intro h1
        exact h ⟨p, hp, Or.inr h1⟩
    simpa using unmarshalJSONLoop_ok decoded [] h2
  rw [hun]
  refine ⟨⟨?_, unmarshalJSONLoop_error decoded []⟩, hgood, ?_⟩
  · rintro ⟨e, he⟩
    by_contra hno
    rw [hgood hno] at he
    cases he
  · intro out hout fl hfl
    by_cases hbad : ∃ p ∈ decoded, p.1 = "" ∨ p.2 = ""
    · obtain ⟨e, he⟩ := unmarshalJSONLoop_error decoded [] hbad
      rw [he] at hout
      cases hout
    · rw [hgood hbad] at hout
      cases hout
      obtain ⟨p, hp, rfl⟩ := List.mem_map.1 hfl
      constructor
      · intro h1
        exact hbad ⟨p, hp, Or.inl h1⟩
      · intro h1
        exact hbad ⟨p, hp, Or.inr h1⟩

theorem unmarshalJSON_spec_witness :
    unmarshalJSON (fun _ : Unit => Except.ok [("ATL", "EWR"), ("SFO", "ATL")]) ()
      = Except.ok [⟨"ATL", "EWR"⟩, ⟨"SFO", "ATL"⟩] :=
  (unmarshalJSON_spec (fun _ : Unit => Except.ok [("ATL", "EWR"), ("SFO", "ATL")]) ()
    [("ATL", "EWR"), ("SFO", "ATL")] rfl).2.1 (by decide)

/-- C9: for every flight list, of any length, and whatever swaps `sort.Slice`
makes on more than 12 flights, the caller's list after `calculateSort` is a
permutation of the list before the call: the same flights, each with its
`From` and `To` unchanged, and so the same length. -/
theorem calculateSort_perm (pdqSwaps : PdqSwaps) (flights : List Flight) :
    (calculateSort pdqSwaps flights).2.Perm flights ∧
    (calculateSort pdqSwaps flights).2.length = flights.length := by
  have h : (calculateSort pdqSwaps flights).2.Perm flights := by
    unfold calculateSort
    split
    · exact List.Perm.refl _
    · split_ifs <;> exact List.Perm.refl _
    · simp only
      split <;> exact sortSlice_perm _ _ _
  exact ⟨h, h.length_eq⟩

/-- C10: for every path `o -> ... -> d` with pairwise distinct vertices and
every flight list `f :: rest` that is a permutation of its edges, every pass
of `calculateReduce` over a non-empty list of flights leaves strictly fewer
unmatched flights; after at most as many passes as there are flights the
retry list is empty, with the route `(o, d)`, and `calculateReduce` returns
within that many passes. -/
theorem calculateReduce_path_passes (o d : String) (mid : List String) (f : Flight)
    (rest : List Flight) (hnd : (o :: (mid ++ [d])).Nodup)
    (hperm : (f :: rest).Perm (pathEdges (o :: (mid ++ [d])))) :
    (∀ k, (reduceState f rest k).2 ≠ [] →
      (reduceState f rest (k + 1)).2.length < (reduceState f rest k).2.length) ∧
    (∃ k, k ≤ (f :: rest).length ∧ reduceState f rest k = (⟨o, d⟩, [])) ∧
    (∃ r, calculateReduce (f :: rest).length (f :: rest) = some (Outcome.value r)) := by
  have hinv := routeInv_init hperm
  have hstep : ∀ k, (reduceState f rest k).2 ≠ [] →
      (reduceState f rest (k + 1)).2.length < (reduceState f rest k).2.length := by
    intro k hk
    have := reducePass_length_lt hnd (reduceState_routeInv hnd hinv k) hk
    simpa [reduceState] using this
  have hbound : ∀ k, (reduceState f rest k).2.length ≤ rest.length - k := by
    intro k
    induction k with
    | zero => simp [reduceState]
    | succ k ih =>
      by_cases hk : (reduceState f rest k).2 = []
      · have := reduceState_length_succ_le f rest k
        rw [hk] at this
        simp only [List.length_nil] at this
        omega
      · have := hstep k hk
        omega
  refine ⟨hstep, ⟨rest.length, by simp, ?_⟩, ?_⟩
  · have hnil : (reduceState f rest rest.length).2 = [] := by
      apply List.eq_nil_of_length_eq_zero
      have := hbound rest.length
      omega
    have hr := reduceState_routeInv hnd hinv rest.length
    rw [hnil] at hr
    have hroute := routeInv_nil hr
    rw [vtx_zero_cons, vtx_last_concat] at hroute
    exact Prod.ext hroute hnil
  · exact ⟨⟨o, d⟩, calculateReduce_of_path o d mid (f :: rest) hnd hperm _ (Nat.le_refl _)⟩

theorem calculateReduce_path_passes_witness :
    ∃ r, calculateReduce 4 [⟨"SFO", "ATL"⟩, ⟨"IND", "EWR"⟩, ⟨"GSO", "IND"⟩, ⟨"ATL", "GSO"⟩]
      = some (Outcome.value r) :=
  (calculateReduce_path_passes "SFO" "EWR" ["ATL", "GSO", "IND"] ⟨"SFO", "ATL"⟩
    [⟨"IND", "EWR"⟩, ⟨"GSO", "IND"⟩, ⟨"ATL", "GSO"⟩] (by decide) (by decide)).2.2

/-- C11, evaluated on the code: on the flights `B->C, C->D, A->B, D->E`, a
permutation of the edges of the path `A->B->C->D->E`, the comparison of
`calculateSort` is not a strict weak ordering: `D->E` is less than itself, and
`A->B` is less than `B->C`, `B->C` less than `C->D`, but `A->B` is not less
than `C->D`. -/
theorem sortLess_not_strictWeakOrder_path4 :
    (["A", "B", "C", "D", "E"] : List String).Nodup ∧
    List.Perm [(⟨"B", "C"⟩ : Flight), ⟨"C", "D"⟩, ⟨"A", "B"⟩, ⟨"D", "E"⟩]
      (pathEdges ["A", "B", "C", "D", "E"]) ∧
    sortLess (fromsOf [⟨"B", "C"⟩, ⟨"C", "D"⟩, ⟨"A", "B"⟩, ⟨"D", "E"⟩])
      ⟨"D", "E"⟩ ⟨"D", "E"⟩ = true ∧
    (sortLess (fromsOf [⟨"B", "C"⟩, ⟨"C", "D"⟩, ⟨"A", "B"⟩, ⟨"D", "E"⟩])
        ⟨"A", "B"⟩ ⟨"B", "C"⟩ = true ∧
      sortLess (fromsOf [⟨"B", "C"⟩, ⟨"C", "D"⟩, ⟨"A", "B"⟩, ⟨"D", "E"⟩])
        ⟨"B", "C"⟩ ⟨"C", "D"⟩ = true ∧
      sortLess (fromsOf [⟨"B", "C"⟩, ⟨"C", "D"⟩, ⟨"A", "B"⟩, ⟨"D", "E"⟩])
        ⟨"A", "B"⟩ ⟨"C", "D"⟩ = false) ∧
    ¬ StrictWeakOrderOn
      (sortLess (fromsOf [⟨"B", "C"⟩, ⟨"C", "D"⟩, ⟨"A", "B"⟩, ⟨"D", "E"⟩]))
      [⟨"B", "C"⟩, ⟨"C", "D"⟩, ⟨"A", "B"⟩, ⟨"D", "E"⟩] := by
  refine ⟨by decide, by decide, by decide, by decide, ?_⟩
  intro h
  have := h.1 ⟨"D", "E"⟩ (by decide)
  revert this
  decide

/-- C12, evaluated on the code: on the flights `B->C, C->D, A->B, D->E`, a
permutation of the edges of the path `A->B->C->D->E` (4 flights), the
reordering step of `calculateSort` leaves the list as it is, and the list is
not a walk: `C->D` is followed by `A->B`. -/
theorem calculateSort_not_walk_path4 (pdqSwaps : PdqSwaps) :
    (["A", "B", "C", "D", "E"] : List String).Nodup ∧
    List.Perm [(⟨"B", "C"⟩ : Flight), ⟨"C", "D"⟩, ⟨"A", "B"⟩, ⟨"D", "E"⟩]
      (pathEdges ["A", "B", "C", "D", "E"]) ∧
    (calculateSort pdqSwaps [⟨"B", "C"⟩, ⟨"C", "D"⟩, ⟨"A", "B"⟩, ⟨"D", "E"⟩]).2
      = [⟨"B", "C"⟩, ⟨"C", "D"⟩, ⟨"A", "B"⟩, ⟨"D", "E"⟩] ∧
    ¬ IsWalk (calculateSort pdqSwaps
      [⟨"B", "C"⟩, ⟨"C", "D"⟩, ⟨"A", "B"⟩, ⟨"D", "E"⟩]).2 := by
  rw [calculateSort_of_length_le pdqSwaps _ (by decide)]
  decide

/-! ## The froms of a path input -/

theorem mem_fromsOf_iff {vs : List String} {flights : List Flight}
    (hperm : flights.Perm (pathEdges vs)) (x : String) :
    (fromsOf flights).contains x = true ↔ ∃ i, i < vs.length - 1 ∧ x = vtx vs i := by
  have hc : (fromsOf flights).contains x = true ↔ x ∈ fromsOf flights := by simp
  rw [hc]
  unfold fromsOf
  rw [List.mem_map]
  constructor
  · rintro ⟨f, hf, rfl⟩
    obtain ⟨i, hi, rfl⟩ := mem_pathEdges.1 (hperm.subset hf)
    exact ⟨i, hi, rfl⟩
  · rintro ⟨i, hi, rfl⟩
    exact ⟨edgeAt vs i, hperm.symm.subset (mem_pathEdges.2 ⟨i, hi, rfl⟩), rfl⟩

/-- On a path input, the `To` of the edge `i` is in `froms` exactly when the
edge is not the last one of the path. -/
theorem to_mem_fromsOf_iff {vs : List String} (hnd : vs.Nodup) {flights : List Flight}
    (hperm : flights.Perm (pathEdges vs)) {i : Nat} (hi : i < vs.length - 1) :
    (fromsOf flights).contains (edgeAt vs i).To = true ↔ i + 1 < vs.length - 1 := by
  rw [mem_fromsOf_iff hperm]
  constructor
  · rintro ⟨j, hj, hv⟩
    have : i + 1 = j := vtx_inj hnd (by omega) (by omega) hv
    omega
  · intro h
    exact ⟨i + 1, h, rfl⟩

/-- On a path input, the flights whose `To` is not in `froms` are the last
edge of the path, once. -/
theorem notInFroms_of_path {vs : List String} (hnd : vs.Nodup) {flights : List Flight}
    (hperm : flights.Perm (pathEdges vs)) (hlen : 2 ≤ vs.length) :
    notInFroms flights = [edgeAt vs (vs.length - 2)] := by
  unfold notInFroms
  apply List.perm_singleton.1
  refine (hperm.filter _).trans ?_
  rw [pathEdges_eq_edgesRange]
  have hN : vs.length - 1 = (vs.length - 2) + 1 := by omega
  rw [hN, edgesRange_concat vs (Nat.zero_le _), List.filter_append]
  have h1 : (edgesRange vs 0 (vs.length - 2)).filter
      (fun f => !((fromsOf flights).contains f.To)) = [] := by
    rw [List.filter_eq_nil_iff]
    intro f hf
    obtain ⟨i, _, hi, rfl⟩ := mem_edgesRange.1 hf
    have := (to_mem_fromsOf_iff hnd hperm (by omega : i < vs.length - 1)).2 (by omega)
    simpa using this
  have h2 : (fromsOf flights).contains (edgeAt vs (vs.length - 2)).To = false := by
    have := (to_mem_fromsOf_iff hnd hperm (by omega : vs.length - 2 < vs.length - 1))
    rcases hc : (fromsOf flights).contains (edgeAt vs (vs.length - 2)).To with _ | _
    · rfl
    · have := this.1 hc
      omega
  have h3 : (edgeAt vs (vs.length - 2)).To ∉ fromsOf flights := by simpa using h2
  rw [h1]
  simp [List.filter_cons, h3]

theorem edgeAt_last_to (o d : String) (mid : List String) :
    (edgeAt (o :: (mid ++ [d])) ((o :: (mid ++ [d])).length - 2)).To = d := by
  have h := vtx_last_concat o d mid
  have hl : (o :: (mid ++ [d])).length - 2 + 1 = (o :: (mid ++ [d])).length - 1 := by
    simp
  simp only [edgeAt, hl]
  exact h

/-- C13: for every path `o -> ... -> d` with pairwise distinct vertices and
every flight list that is a permutation of its edges, exactly one flight of
the list has a `To` that is not in the `froms` built by `calculateSort`, and
that flight ends at `d`. -/
theorem notInFroms_path (o d : String) (mid : List String) (flights : List Flight)
    (hnd : (o :: (mid ++ [d])).Nodup)
    (hperm : flights.Perm (pathEdges (o :: (mid ++ [d])))) :
    ∃ f, notInFroms flights = [f] ∧ f ∈ flights ∧ f.To = d := by
  have h := notInFroms_of_path hnd hperm (by simp)
  refine ⟨_, h, ?_, edgeAt_last_to o d mid⟩
  have hm : edgeAt (o :: (mid ++ [d])) ((o :: (mid ++ [d])).length - 2) ∈ notInFroms flights := by
    rw [h]
    exact List.mem_singleton_self _
  exact (List.mem_filter.1 hm).1

theorem notInFroms_path_witness :
    ∃ f, notInFroms [⟨"IND", "EWR"⟩, ⟨"SFO", "ATL"⟩, ⟨"GSO", "IND"⟩, ⟨"ATL", "GSO"⟩] = [f] ∧
      f ∈ [(⟨"IND", "EWR"⟩ : Flight), ⟨"SFO", "ATL"⟩, ⟨"GSO", "IND"⟩, ⟨"ATL", "GSO"⟩] ∧
      f.To = "EWR" :=
  notInFroms_path "SFO" "EWR" ["ATL", "GSO", "IND"]
    [⟨"IND", "EWR"⟩, ⟨"SFO", "ATL"⟩, ⟨"GSO", "IND"⟩, ⟨"ATL", "GSO"⟩] (by decide) (by decide)

/-! ## The insertion sort, element by element -/

theorem swapAdj_append (pre : List Flight) (a b : Flight) (post : List Flight) :
    swapAdj (pre ++ a :: b :: post) pre.length = pre ++ b :: a :: post := by
  induction pre with
  | nil => simp [swapAdj]
  | cons p pre ih =>
    cases pre with
    | nil => simp [swapAdj]
    | cons q pre => simpa [swapAdj] using ih

theorem length_insertRev (less : Flight → Flight → Bool) (x : Flight) (r : List Flight) :
    (insertRev less x r).length = r.length + 1 := by
  induction r with
  | nil => simp [insertRev]
  | cons y r ih =>
    unfold insertRev
    split_ifs <;> simp [ih]

theorem mem_insertRev (less : Flight → Flight → Bool) (x a : Flight) (r : List Flight) :
    a ∈ insertRev less x r ↔ a = x ∨ a ∈ r := by
  induction r with
  | nil => simp [insertRev]
  | cons y r ih =>
    unfold insertRev
    split_ifs
    · simp only [List.mem_cons, ih]
      tauto
    · simp only [List.mem_cons]

/-- The inner loop started at the end of the sorted part `r.reverse` inserts
the next element `x` into it. -/
theorem insertLoop_append (less : Flight → Flight → Bool) (r : List Flight) (x : Flight)
    (post : List Flight) :
    insertLoop less r.length (r.reverse ++ x :: post)
      = (insertRev less x r).reverse ++ post := by
  induction r generalizing post with
  | nil => simp [insertLoop, insertRev]
  | cons y r ih =>
    have hdata : (y :: r).reverse ++ x :: post = r.reverse ++ y :: x :: post := by simp
    have hlen : (y :: r).length = r.reverse.length + 1 := by simp
    rw [hdata, hlen]
    unfold insertLoop
    have h1 : (r.reverse ++ y :: x :: post)[r.reverse.length + 1]? = some x := by
      rw [List.getElem?_append_right (by omega)]
      simp
    have h0 : (r.reverse ++ y :: x :: post)[r.reverse.length]? = some y := by
      rw [List.getElem?_append_right (by omega)]
      simp
    rw [h1, h0]
    simp only
    rw [swapAdj_append]
    unfold insertRev
    split_ifs with hless
    · have := ih (y :: post)
      rw [List.length_reverse]
      rw [this]
      simp
    · simp

/-- The insertion sort inserts the elements one after the other, from the
second on, into the part before them. -/
theorem foldl_insertLoop_eq (less : Flight → Flight → Bool) (post r : List Flight) :
    (List.range' r.length post.length).foldl (fun d i => insertLoop less i d)
        (r.reverse ++ post)
      = (post.foldl (fun s x => insertRev less x s) r).reverse := by
  induction post generalizing r with
  | nil => simp
  | cons x post ih =>
    simp only [List.length_cons, List.range'_succ, List.foldl_cons]
    rw [insertLoop_append]
    have := ih (insertRev less x r)
    rw [length_insertRev] at this
    exact this

theorem insertionSort_cons (less : Flight → Flight → Bool) (a : Flight) (rest : List Flight) :
    insertionSort less (a :: rest)
      = (rest.foldl (fun s x => insertRev less x s) [a]).reverse := by
  unfold insertionSort
  have := foldl_insertLoop_eq less rest [a]
  simpa using this

/-! ## The flight that ends at the sink is sorted last -/

/-- Inserting next to a sink `z` (every flight is less than `z`, and `z` is
less than no other flight of the list): when `z` is in the sorted part after
the insertion, it is its last element. -/
theorem insertRev_head_sink (less : Flight → Flight → Bool) (z : Flight)
    (hT : ∀ x, less x z = true) (x : Flight) (r : List Flight)
    (hQ : ∀ y ∈ r, y ≠ z → less z y = false)
    (hinv : z ∈ r → r.head? = some z) (hz : z ∈ insertRev less x r) :
    (insertRev less x r).head? = some z := by
  cases r with
  | nil =>
    simp only [insertRev, List.mem_singleton] at hz ⊢
    simp [hz]
  | cons y r =>
    by_cases hy : y = z
    · subst hy
      simp [insertRev, hT x]
    · have hnot : z ∉ y :: r := by
        intro hmem
        have := hinv hmem
        simp only [List.head?_cons, Option.some.injEq] at this
        exact hy this
      unfold insertRev at hz ⊢
      split_ifs at hz ⊢ with hless
      · exfalso
        rcases List.mem_cons.1 hz with h | h
        · exact hy h.symm
        · rcases (mem_insertRev less x z r).1 h with h | h
          · subst h
            have := hQ y (List.mem_cons_self _ _) hy
            rw [this] at hless
            exact Bool.noConfusion hless
          · exact hnot (List.mem_cons_of_mem _ h)
      · rcases List.mem_cons.1 hz with h | h
        · simp [h]
        · exact absurd h hnot

theorem mem_foldl_insertRev (less : Flight → Flight → Bool) (a : Flight)
    (xs r : List Flight) :
    a ∈ xs.foldl (fun s x => insertRev less x s) r ↔ a ∈ xs ∨ a ∈ r := by
  induction xs generalizing r with
  | nil => simp
  | cons x xs ih =>
    simp only [List.foldl_cons, ih, mem_insertRev, List.mem_cons]
    tauto

theorem foldl_insertRev_head_sink (less : Flight → Flight → Bool) (z : Flight)
    (hT : ∀ x, less x z = true) (xs r : List Flight)
    (hQr : ∀ y ∈ r, y ≠ z → less z y = false)
    (hQx : ∀ y ∈ xs, y ≠ z → less z y = false)
    (hinv : z ∈ r → r.head? = some z)
    (hz : z ∈ xs.foldl (fun s x => insertRev less x s) r) :
    (xs.foldl (fun s x => insertRev less x s) r).head? = some z := by
  induction xs generalizing r with
  | nil => exact hinv hz
  | cons x xs ih =>
    simp only [List.foldl_cons] at hz ⊢
    apply ih
    · intro y hy
      rcases (mem_insertRev less x y r).1 hy with h | h
      · subst h
        exact hQx y (List.mem_cons_self _ _)
      · exact hQr y h
    · intro y hy
      exact hQx y (List.mem_cons_of_mem _ hy)
    · exact insertRev_head_sink less z hT x r hQr hinv
    · exact hz

/-- The insertion sort puts a sink of the list last. -/
theorem insertionSort_getLast_sink (less : Flight → Flight → Bool) (z : Flight)
    (data : List Flight) (hT : ∀ x, less x z = true)
    (hQ : ∀ y ∈ data, y ≠ z → less z y = false) (hz : z ∈ data) :
    (insertionSort less data).getLast? = some z := by
  cases data with
  | nil => simp at hz
  | cons a rest =>
    rw [insertionSort_cons, List.getLast?_reverse]
    apply foldl_insertRev_head_sink less z hT
    · intro y hy
      exact hQ y (by simp only [List.mem_singleton] at hy; simp [hy])
    · intro y hy
      exact hQ y (List.mem_cons_of_mem _ hy)
    · intro h
      simp only [List.mem_singleton] at h
      simp [h]
    · rw [mem_foldl_insertRev]
      rcases List.mem_cons.1 hz with h | h
      · right; simp [h]
      · left; exact h

/-- On a path input the last edge of the path is a sink for the comparison
of `calculateSort`. -/
theorem sortLess_sink_of_path {vs : List String} (hnd : vs.Nodup) {flights : List Flight}
    (hperm : flights.Perm (pathEdges vs)) (hlen : 2 ≤ vs.length) :
    (∀ x, sortLess (fromsOf flights) x (edgeAt vs (vs.length - 2)) = true) ∧
    (∀ y ∈ flights, y ≠ edgeAt vs (vs.length - 2) →
      sortLess (fromsOf flights) (edgeAt vs (vs.length - 2)) y = false) := by
  have hlast : (fromsOf flights).contains (edgeAt vs (vs.length - 2)).To = false := by
    have := to_mem_fromsOf_iff hnd hperm (by omega : vs.length - 2 < vs.length - 1)
    rcases hc : (fromsOf flights).contains (edgeAt vs (vs.length - 2)).To with _ | _
    · rfl
    · have := this.1 hc
      omega
  constructor
  · intro x
    unfold sortLess
    rw [hlast]
    simp
  · intro y hy hne
    obtain ⟨i, hi, rfl⟩ := mem_pathEdges.1 (hperm.subset hy)
    have hi2 : i ≠ vs.length - 2 := by
      rintro rfl
      exact hne rfl
    have hc := (to_mem_fromsOf_iff hnd hperm hi).2 (by omega)
    have hv : ¬ vtx vs (vs.length - 2 + 1) = vtx vs i := by
      intro h
      have := vtx_inj hnd (by omega) (by omega) h
      omega
    simp only [sortLess, hc, Bool.not_true, Bool.or_false, beq_eq_false_iff_ne, ne_eq]
    simpa [edgeAt] using hv

/-- With three to twelve flights `calculateSort` sorts by insertion, and reads
the first and the last flight of the sorted list. -/
theorem calculateSort_of_three_le (pdqSwaps : PdqSwaps) (flights : List Flight)
    (h3 : 3 ≤ flights.length) (h12 : flights.length ≤ 12) :
    ∃ first last,
      (insertionSort (sortLess (fromsOf flights)) flights).head? = some first ∧
      (insertionSort (sortLess (fromsOf flights)) flights).getLast? = some last ∧
      calculateSort pdqSwaps flights = (Outcome.value ⟨first.From, last.To⟩,
        insertionSort (sortLess (fromsOf flights)) flights) := by
  have hlen := (insertionSort_perm (sortLess (fromsOf flights)) flights).length_eq
  have hsort := sortSlice_of_length_le pdqSwaps (sortLess (fromsOf flights)) flights h12
  match flights, h3, hlen, hsort with
  | a :: b :: c :: rest, _, hlen, hsort =>
    generalize hs : insertionSort (sortLess (fromsOf (a :: b :: c :: rest)))
      (a :: b :: c :: rest) = sorted at hlen hsort
    have hpos : 0 < sorted.length := by rw [hlen]; simp
    have h0 : sorted[0]? = some (sorted[0]) := List.getElem?_eq_getElem hpos
    have h1 : sorted[sorted.length - 1]? = some (sorted[sorted.length - 1]) :=
      List.getElem?_eq_getElem (by omega)
    refine ⟨sorted[0], sorted[sorted.length - 1], ?_, ?_, ?_⟩
    · rw [List.head?_eq_getElem?]
      exact h0
    · rw [List.getLast?_eq_getElem?]
      exact h1
    · simp only [calculateSort, hsort, h0, h1]

/-- C17: for every path `o -> ... -> d` with pairwise distinct vertices and
every list of three to twelve flights (the lists `sort.Slice` sorts by
insertion) that is a permutation of its edges, the flight that ends at `d` is
the last one after the sort of `calculateSort`, and so the `To` of the result
of `calculateSort` is `d`. -/
theorem calculateSort_destination (pdqSwaps : PdqSwaps) (o d : String) (mid : List String)
    (flights : List Flight) (hnd : (o :: (mid ++ [d])).Nodup)
    (hperm : flights.Perm (pathEdges (o :: (mid ++ [d]))))
    (h3 : 3 ≤ flights.length) (h12 : flights.length ≤ 12) :
    ∃ f, (calculateSort pdqSwaps flights).2.getLast? = some f ∧ f.To = d ∧
      ∃ a, (calculateSort pdqSwaps flights).1 = Outcome.value ⟨a, d⟩ := by
  obtain ⟨first, last, _, hlast, hcalc⟩ :=
    calculateSort_of_three_le pdqSwaps flights h3 h12
  have hsink := sortLess_sink_of_path hnd hperm (by simp)
  have hz : edgeAt (o :: (mid ++ [d])) ((o :: (mid ++ [d])).length - 2) ∈ flights :=
    hperm.symm.subset (mem_pathEdges.2 ⟨_, by simp, rfl⟩)
  have hl := insertionSort_getLast_sink (sortLess (fromsOf flights)) _ flights
    hsink.1 hsink.2 hz
  rw [hlast] at hl
  have hlast_eq : last = edgeAt (o :: (mid ++ [d])) ((o :: (mid ++ [d])).length - 2) :=
    Option.some.inj hl
  have hto : last.To = d := by
    rw [hlast_eq]
    exact edgeAt_last_to o d mid
  refine ⟨last, ?_, hto, first.From, ?_⟩
  · rw [hcalc]
    exact hlast
  · rw [hcalc, hto]

theorem calculateSort_destination_witness :
    ∃ f, (calculateSort (fun _ _ => [])
        [⟨"B", "C"⟩, ⟨"C", "D"⟩, ⟨"A", "B"⟩, ⟨"D", "E"⟩]).2.getLast? = some f ∧
      f.To = "E" ∧
      ∃ a, (calculateSort (fun _ _ => [])
          [⟨"B", "C"⟩, ⟨"C", "D"⟩, ⟨"A", "B"⟩, ⟨"D", "E"⟩]).1
        = Outcome.value ⟨a, "E"⟩ :=
  calculateSort_destination (fun _ _ => []) "A" "E" ["B", "C", "D"]
    [⟨"B", "C"⟩, ⟨"C", "D"⟩, ⟨"A", "B"⟩, ⟨"D", "E"⟩] (by decide) (by decide) (by decide)
    (by decide)

/-! ## The orders of two and of three flights -/

theorem perm_pair_cases {a b : Flight} {l : List Flight} (h : l.Perm [a, b]) :
    l = [a, b] ∨ l = [b, a] := by
  match l, h with
  | [], h => simpa using h.length_eq
  | x :: l, h =>
    have hx : x ∈ [a, b] := h.subset (List.mem_cons_self _ _)
    simp only [List.mem_cons, List.mem_singleton, List.not_mem_nil, or_false] at hx
    rcases hx with rfl | rfl
    · left
      rw [List.perm_singleton.1 (List.Perm.cons_inv h)]
    · right
      have h2 : (x :: l).Perm [x, a] := h.trans (List.Perm.swap x a [])
      rw [List.perm_singleton.1 (List.Perm.cons_inv h2)]

theorem perm_triple_cases {a b c : Flight} {l : List Flight} (h : l.Perm [a, b, c]) :
    l = [a, b, c] ∨ l = [a, c, b] ∨ l = [b, a, c] ∨ l = [b, c, a] ∨
      l = [c, a, b] ∨ l = [c, b, a] := by
  match l, h with
  | [], h => simpa using h.length_eq
  | x :: l, h =>
    have hx : x ∈ [a, b, c] := h.subset (List.mem_cons_self _ _)
    simp only [List.mem_cons, List.mem_singleton, List.not_mem_nil, or_false] at hx
    rcases hx with rfl | rfl | rfl
    · rcases perm_pair_cases (List.Perm.cons_inv h) with h1 | h1 <;> simp [h1]
    · have h2 : (x :: l).Perm (x :: [a, c]) := h.trans (List.Perm.swap x a [c])
      rcases perm_pair_cases (List.Perm.cons_inv h2) with h1 | h1 <;> simp [h1]
    · have h2 : (x :: l).Perm (x :: [a, b]) :=
        h.trans ((List.Perm.cons a (List.Perm.swap x b [])).trans (List.Perm.swap x a [b]))
      rcases perm_pair_cases (List.Perm.cons_inv h2) with h1 | h1 <;> simp [h1]

/-- C18: for every path `o -> ... -> d` of at most three edges with pairwise
distinct vertices, and every flight list that is a permutation of its edges
(each of the `N!` orders), `calculateSort` returns the flight `(o, d)`. -/
theorem calculateSort_path_le_three (pdqSwaps : PdqSwaps) (o d : String)
    (mid : List String) (flights : List Flight) (hmid : mid.length ≤ 2)
    (hnd : (o :: (mid ++ [d])).Nodup)
    (hperm : flights.Perm (pathEdges (o :: (mid ++ [d])))) :
    (calculateSort pdqSwaps flights).1 = Outcome.value ⟨o, d⟩ := by
  match mid, hmid, hnd, hperm with
  | [], _, _, hperm =>
    have hfl : flights = [⟨o, d⟩] := by
      apply List.perm_singleton.1
      simpa [pathEdges] using hperm
    subst hfl
    rfl
  | [m], _, hnd, hperm =>
    have hp : flights.Perm [(⟨o, m⟩ : Flight), ⟨m, d⟩] := by simpa [pathEdges] using hperm
    simp only [List.nodup_cons, List.mem_cons, List.mem_singleton, List.append_eq,
      List.nil_append, List.cons_append, List.not_mem_nil, not_or, List.nodup_nil,
      not_false_eq_true, and_true, or_false] at hnd
    obtain ⟨⟨hom, hod⟩, hmd⟩ := hnd
    rcases perm_pair_cases hp with h | h <;> subst h
    · simp [calculateSort, hod]
    · simp [calculateSort]
  | [m1, m2], _, hnd, hperm =>
    have hp : flights.Perm [(⟨o, m1⟩ : Flight), ⟨m1, m2⟩, ⟨m2, d⟩] := by
      simpa [pathEdges] using hperm
    simp only [List.nodup_cons, List.mem_cons, List.mem_singleton, List.append_eq,
      List.nil_append, List.cons_append, List.not_mem_nil, not_or, List.nodup_nil,
      not_false_eq_true, and_true, or_false] at hnd
    obtain ⟨⟨h01, h02, h0d⟩, ⟨h12, h1d⟩, h2d⟩ := hnd
    have h10 := Ne.symm h01
    have h20 := Ne.symm h02
    have hd0 := Ne.symm h0d
    have h21 := Ne.symm h12
    have hd1 := Ne.symm h1d
    have hd2 := Ne.symm h2d
    rcases perm_triple_cases hp with h | h | h | h | h | h <;> subst h <;>
      simp [calculateSort, sortSlice, insertionSort_cons, insertRev, sortLess, fromsOf, *]

theorem calculateSort_path_le_three_witness :
    (calculateSort (fun _ _ => []) [⟨"GSO", "EWR"⟩, ⟨"SFO", "ATL"⟩, ⟨"ATL", "GSO"⟩]).1
      = Outcome.value ⟨"SFO", "EWR"⟩ :=
  calculateSort_path_le_three (fun _ _ => []) "SFO" "EWR" ["ATL", "GSO"]
    [⟨"GSO", "EWR"⟩, ⟨"SFO", "ATL"⟩, ⟨"ATL", "GSO"⟩] (by decide) (by decide) (by decide)

/-- C15, evaluated on the code: on the three bytes `[[]` the text between the
outer brackets is `[`; the first turn of the loop reads `s[0] = '['`, and then
`s[1]` is out of range: `unmarshalCustom` ends in a runtime panic, not in an
error. -/
theorem unmarshalCustom_panics :
    unmarshalCustom "[[]".data = some UnmarshalOutcome.panicIndexOutOfRange ∧
    unmarshalCustom "[[\"a\",\"\"]".data = some UnmarshalOutcome.panicIndexOutOfRange ∧
    unmarshalCustom "[[\"a\",\"b\"],]".data
      = some UnmarshalOutcome.panicIndexOutOfRange := by
  decide

/-! ## Lemmas on unmarshalCustom -/

theorem scanQuote_append (word rest : List Char) (h : '"' ∉ word) :
    scanQuote (word ++ '"' :: rest) = some (word, rest) := by
  induction word with
  | nil => simp [scanQuote]
  | cons c word ih =>
    have hc : c ≠ '"' := fun e => h (by simp [e])
    have hw : '"' ∉ word := fun e => h (List.mem_cons_of_mem _ e)
    simp [scanQuote, hc, ih hw]

theorem scanQuote_length {s word after : List Char} (h : scanQuote s = some (word, after)) :
    after.length < s.length := by
  induction s generalizing word after with
  | nil => simp [scanQuote] at h
  | cons c s ih =>
    unfold scanQuote at h
    split_ifs at h
    · simp only [Option.some.injEq, Prod.mk.injEq] at h
      rw [← h.2]
      simp
    · split at h
      · rename_i w a hs
        simp only [Option.some.injEq, Prod.mk.injEq] at h
        have := ih hs
        rw [← h.2]
        simp only [List.length_cons]
        omega
      · simp at h

theorem skipSpaces_length {s next : List Char} (h : skipSpaces s = some next) :
    next.length ≤ s.length := by
  induction s generalizing next with
  | nil => simp [skipSpaces] at h
  | cons c s ih =>
    unfold skipSpaces at h
    split_ifs at h
    · have := ih h
      simp only [List.length_cons]
      omega
    · simp only [Option.some.injEq] at h
      rw [← h]

theorem parseAfterElem_length {f g : Flight} {s next : List Char}
    (h : parseAfterElem f s = ElemStep.next g next) : next.length < s.length := by
  cases s with
  | nil => simp [parseAfterElem] at h
  | cons c s =>
    rw [parseAfterElem] at h
    split_ifs at h
    split at h
    · simp at h
    · rename_i n hs
      simp only [ElemStep.next.injEq] at h
      have := skipSpaces_length hs
      rw [← h.2]
      simp only [List.length_cons]
      omega

theorem parseTo_length {w : List Char} {g : Flight} {s next : List Char}
    (h : parseTo w s = ElemStep.next g next) : next.length < s.length := by
  cases s with
  | nil => simp [parseTo] at h
  | cons c s =>
    rw [parseTo] at h
    split_ifs at h
    split at h
    · simp at h
    · rename_i t a hs
      have h1 := scanQuote_length hs
      split at h
      · simp at h
      · split_ifs at h
        have h2 := parseAfterElem_length h
        simp only [List.length_cons] at h1 ⊢
        omega

theorem parseComma_length {w : List Char} {g : Flight} {s next : List Char}
    (h : parseComma w s = ElemStep.next g next) : next.length < s.length := by
  cases s with
  | nil => simp [parseComma] at h
  | cons c s =>
    rw [parseComma] at h
    split_ifs at h
    split at h
    · simp at h
    · rename_i n hs
      have h1 := skipSpaces_length hs
      have h2 := parseTo_length h
      simp only [List.length_cons]
      omega

theorem parseElem_length {g : Flight} {s next : List Char}
    (h : parseElem s = ElemStep.next g next) : next.length < s.length := by
  match s, h with
  | [], h => simp [parseElem] at h
  | [c], h =>
    rw [parseElem] at h
    split_ifs at h
  | c :: c1 :: s, h =>
    rw [parseElem] at h
    split_ifs at h
    split at h
    · simp at h
    · rename_i w a hs
      have h1 := scanQuote_length hs
      have h2 := parseComma_length h
      simp only [List.length_cons] at h1 ⊢
      omega

/-- The loop of `unmarshalCustom` ends within as many turns as `s` has bytes:
the fuel does not run out. -/
theorem unmarshalCustomLoop_isSome (fuel : Nat) (s : List Char) (elem : Nat)
    (out : List Flight) (hfuel : s.length ≤ fuel) :
    (unmarshalCustomLoop fuel s elem out).isSome = true := by
  induction fuel generalizing s elem out with
  | zero =>
    cases s with
    | nil => simp [unmarshalCustomLoop]
    | cons c s => simp at hfuel
  | succ n ih =>
    cases s with
    | nil => simp [unmarshalCustomLoop]
    | cons c s =>
      unfold unmarshalCustomLoop
      split
      · rfl
      · rename_i f next hp
        have := parseElem_length hp
        exact ih _ _ _ (by omega)
      · rfl
      · rfl

/-- The model of `unmarshalCustom` is total: every call ends, in flights, an
error or a panic. -/
theorem unmarshalCustom_isSome (data : List Char) :
    (unmarshalCustom data).isSome = true := by
  unfold unmarshalCustom
  simp only
  split_ifs
  · rfl
  · rfl
  · rfl
  · exact unmarshalCustomLoop_isSome _ _ _ _ (Nat.le_refl _)

/-! ## unmarshalCustom on the text of a flight list -/

theorem parseElem_encodeElem (f : Flight) (tail : List Char)
    (hfrom : '"' ∉ f.From.data) (hto : '"' ∉ f.To.data) :
    parseElem (encodeElem f ++ tail) = parseAfterElem f tail := by
  have h1 : encodeElem f ++ tail
      = '[' :: '"' :: (f.From.data ++ '"' :: (',' :: ' ' :: '"' ::
          (f.To.data ++ '"' :: (']' :: tail)))) := by
    simp [encodeElem]
  rw [h1, parseElem]
  simp only [ne_eq, not_true_eq_false, if_false]
  rw [scanQuote_append _ _ hfrom]
  simp only [parseComma, ne_eq, not_true_eq_false, if_false, skipSpaces, if_true]
  have hsp : ¬ ('"' = ' ') := by decide
  simp only [hsp, if_false, parseTo, ne_eq, not_true_eq_false]
  rw [scanQuote_append _ _ hto]
  simp only [ne_eq, not_true_eq_false, if_false]

theorem encodeElems_cons_eq (g : Flight) (rest : List Flight) :
    ∃ t, encodeElems (g :: rest) = '[' :: t := by
  refine ⟨(encodeElems (g :: rest)).tail, ?_⟩
  cases rest <;> simp [encodeElems, encodeElem]

theorem length_le_encodeElems (fs : List Flight) : fs.length ≤ (encodeElems fs).length := by
  induction fs with
  | nil => simp
  | cons f rest ih =>
    cases rest with
    | nil => simp [encodeElems, encodeElem]
    | cons g rest =>
      simp only [encodeElems, encodeElem, List.length_append, List.length_cons,
        List.length_nil] at ih ⊢
      omega

theorem count_quote_encodeElems (fs : List Flight)
    (h : ∀ f ∈ fs, '"' ∉ f.From.data ∧ '"' ∉ f.To.data) :
    (encodeElems fs).count '"' = 4 * fs.length := by
  induction fs with
  | nil => simp [encodeElems]
  | cons f rest ih =>
    have hf := h f (List.mem_cons_self _ _)
    have hc1 := List.count_eq_zero_of_not_mem hf.1
    have hc2 := List.count_eq_zero_of_not_mem hf.2
    have hrest := ih (fun g hg => h g (List.mem_cons_of_mem _ hg))
    cases rest with
    | nil =>
      simp [encodeElems, encodeElem, List.count_cons, hc1, hc2]
    | cons g rest =>
      simp only [encodeElems, List.count_append, hrest]
      simp [encodeElem, List.count_cons, hc1, hc2]
      omega

theorem unmarshalCustomLoop_encodeElems (fs : List Flight)
    (h : ∀ f ∈ fs, '"' ∉ f.From.data ∧ '"' ∉ f.To.data)
    (fuel : Nat) (hfuel : fs.length ≤ fuel) (elem : Nat) (out : List Flight) :
    unmarshalCustomLoop fuel (encodeElems fs) elem out
      = some (UnmarshalOutcome.flights (out ++ fs)) := by
  induction fs generalizing fuel elem out with
  | nil => cases fuel <;> simp [encodeElems, unmarshalCustomLoop]
  | cons f rest ih =>
    have hf := h f (List.mem_cons_self _ _)
    obtain ⟨t, ht⟩ := encodeElems_cons_eq f rest
    cases fuel with
    | zero => simp at hfuel
    | succ n =>
      rw [ht, unmarshalCustomLoop, ← ht]
      cases rest with
      | nil =>
        have hp := parseElem_encodeElem f [] hf.1 hf.2
        simp only [List.append_nil] at hp
        simp only [encodeElems, hp, parseAfterElem]
      | cons g rest =>
        obtain ⟨u, hu⟩ := encodeElems_cons_eq g rest
        have hp := parseElem_encodeElem f (',' :: ' ' :: encodeElems (g :: rest)) hf.1 hf.2
        have he : encodeElems (f :: g :: rest)
            = encodeElem f ++ (',' :: ' ' :: encodeElems (g :: rest)) := by
          simp [encodeElems]
        have hnext : parseAfterElem f (',' :: ' ' :: encodeElems (g :: rest))
            = ElemStep.next f (encodeElems (g :: rest)) := by
          rw [hu]
          have hsp : ¬ ('[' = ' ') := by decide
          simp [parseAfterElem, skipSpaces, hsp]
        rw [he, hp, hnext]
        simp only
        rw [ih (fun x hx => h x (List.mem_cons_of_mem _ hx)) n
          (by simp only [List.length_cons] at hfuel ⊢; omega)]
        simp

/-- C14: for every list of flights whose `From` and `To` hold no double quote,
`unmarshalCustom` applied to the text `[` + the elements `["From", "To"]`
joined by `, ` + `]` returns, with no error, that list of flights in the same
order (the empty list for `[]`). -/
theorem unmarshalCustom_encodeFlights (fs : List Flight)
    (h : ∀ f ∈ fs, '"' ∉ f.From.data ∧ '"' ∉ f.To.data) :
    unmarshalCustom (encodeFlights fs) = some (UnmarshalOutcome.flights fs) := by
  have hs : (List.drop 1 (encodeFlights fs)).dropLast = encodeElems fs := by
    simp [encodeFlights]
  have hlast : (encodeFlights fs).getLast? = some ']' := by
    have he : encodeFlights fs = ('[' :: encodeElems fs) ++ [']'] := rfl
    rw [he, List.getLast?_concat]
  have hcount := count_quote_encodeElems fs h
  unfold unmarshalCustom
  simp only [hs, hlast]
  rw [if_neg (by simp [encodeFlights])]
  rw [if_neg (by simp [encodeFlights])]
  rw [if_neg (by rw [hcount]; omega)]
  rw [unmarshalCustomLoop_encodeElems fs h _ (length_le_encodeElems fs)]
  simp

theorem unmarshalCustom_encodeFlights_witness :
    unmarshalCustom "[[\"ATL\", \"EWR\"], [\"SFO\", \"ATL\"]]".data
      = some (UnmarshalOutcome.flights [⟨"ATL", "EWR"⟩, ⟨"SFO", "ATL"⟩]) :=
  unmarshalCustom_encodeFlights [⟨"ATL", "EWR"⟩, ⟨"SFO", "ATL"⟩] (by decide)

/-! ## marshalAppend on letters and digits -/

theorem quoteBytes_of_letterOrDigit (escapeRest : List Char → List Char) (s : List Char)
    (h : ∀ c ∈ s, isLetterOrDigit c = true) : quoteBytes escapeRest s = s := by
  induction s with
  | nil => rfl
  | cons c s ih =>
    have hc := h c (List.mem_cons_self _ _)
    have hq : ('"' : Char).toNat = 34 := by decide
    have hb : ('\\' : Char).toNat = 92 := by decide
    simp only [isLetterOrDigit, Bool.or_eq_true, Bool.and_eq_true, decide_eq_true_eq] at hc
    have h1 : ¬ (c = '"' ∨ c = '\\') := by
      rintro (e | e)
      · rw [e, hq] at hc
        omega
      · rw [e, hb] at hc
        omega
    have h2 : 0x20 ≤ c.toNat ∧ c.toNat ≤ 0x7E := by omega
    rw [quoteBytes, if_neg h1, if_pos h2, ih (fun x hx => h x (List.mem_cons_of_mem _ hx))]

/-- C16: for every flight whose `From` and `To` are made of ASCII letters and
digits, `marshalAppend` hands to the writer exactly the bytes
`["` + `From` + `","` + `To` + `"]` followed by one newline, and returns no
error when that write returns none. -/
theorem marshalAppend_letters_digits (escapeRest : List Char → List Char)
    (write : List Char → Option String) (flight : Flight)
    (hfrom : ∀ c ∈ flight.From.data, isLetterOrDigit c = true)
    (hto : ∀ c ∈ flight.To.data, isLetterOrDigit c = true) :
    (marshalAppend escapeRest write flight).1
      = ['[', '"'] ++ flight.From.data ++ ['"', ',', '"'] ++ flight.To.data
          ++ ['"', ']', '\n'] ∧
    (write (['[', '"'] ++ flight.From.data ++ ['"', ',', '"'] ++ flight.To.data
        ++ ['"', ']', '\n']) = none →
      (marshalAppend escapeRest write flight).2 = none) := by
  have hb : (marshalAppend escapeRest write flight).1
      = ['[', '"'] ++ flight.From.data ++ ['"', ',', '"'] ++ flight.To.data
          ++ ['"', ']', '\n'] := by
    simp [marshalAppend, appendQuote, quoteBytes_of_letterOrDigit _ _ hfrom,
      quoteBytes_of_letterOrDigit _ _ hto]
  refine ⟨hb, fun hw => ?_⟩
  have h2 : (marshalAppend escapeRest write flight).2
      = write (marshalAppend escapeRest write flight).1 := rfl
  rw [h2, hb, hw]

theorem marshalAppend_letters_digits_witness :
    (marshalAppend (fun _ => []) (fun _ => none) ⟨"SFO", "EWR"⟩).1
      = "[\"SFO\",\"EWR\"]\n".data :=
  (marshalAppend_letters_digits (fun _ => []) (fun _ => none) ⟨"SFO", "EWR"⟩
    (by decide) (by decide)).1

end Flightpath
